import Mathlib

/-!
A shallow embedding of the Barnes-Hut octree construction from
`src/octtree.rs` (crate `BarnesHut`).  The `f32` scalars of the source are
modelled by exact rationals `ℚ`; `Vec3` is a record of three rationals, and
the SIMD bucket `(usize×8, Vec3x8, f32x8)` is modelled in the same
structure-of-arrays layout by length-8 lists (`idxs`, `px`, `py`, `pz`, `ms`).
Mutation in the Rust source becomes explicit state passing: every method
returns the updated node.
-/

namespace BarnesHut

/-- `ultraviolet::Vec3`, with `f32` components modelled as `ℚ`. -/
structure Vec3 where
  x : ℚ
  y : ℚ
  z : ℚ
deriving DecidableEq, Repr

namespace Vec3

/-- `Vec3::zero()`. -/
def zero : Vec3 := ⟨0, 0, 0⟩

instance : Add Vec3 := ⟨fun a b => ⟨a.x + b.x, a.y + b.y, a.z + b.z⟩⟩

instance : Sub Vec3 := ⟨fun a b => ⟨a.x - b.x, a.y - b.y, a.z - b.z⟩⟩

/-- `Mul<Vec3> for Vec3` in ultraviolet is componentwise. -/
instance : Mul Vec3 := ⟨fun a b => ⟨a.x * b.x, a.y * b.y, a.z * b.z⟩⟩

/-- `Div<f32> for Vec3`: scalar division. -/
instance : HDiv Vec3 ℚ Vec3 := ⟨fun a q => ⟨a.x / q, a.y / q, a.z / q⟩⟩

/-- `Mul<Vec3> for f32`: scalar multiplication. -/
instance : SMul ℚ Vec3 := ⟨fun q a => ⟨q * a.x, q * a.y, q * a.z⟩⟩

/-- `Vec3::min_by_component`. -/
def minByComponent (a b : Vec3) : Vec3 := ⟨min a.x b.x, min a.y b.y, min a.z b.z⟩

/-- `Vec3::max_by_component`. -/
def maxByComponent (a b : Vec3) : Vec3 := ⟨max a.x b.x, max a.y b.y, max a.z b.z⟩

theorem add_def (a b : Vec3) : a + b = ⟨a.x + b.x, a.y + b.y, a.z + b.z⟩ := rfl

theorem sub_def (a b : Vec3) : a - b = ⟨a.x - b.x, a.y - b.y, a.z - b.z⟩ := rfl

theorem mul_def (a b : Vec3) : a * b = ⟨a.x * b.x, a.y * b.y, a.z * b.z⟩ := rfl

theorem div_def (a : Vec3) (q : ℚ) : a / q = ⟨a.x / q, a.y / q, a.z / q⟩ := rfl

theorem smul_def (q : ℚ) (a : Vec3) : q • a = ⟨q * a.x, q * a.y, q * a.z⟩ := rfl

end Vec3

/-- The non-recursive fields of an `Octree` node.  `idxs`, `px`, `py`, `pz`,
`ms` model the fixed-size bucket `point: ([usize; 8], Vec3x8, f32x8)` in its
structure-of-arrays layout: all five lists always have length 8. -/
structure NodeData where
  idxs : List ℕ
  px : List ℚ
  py : List ℚ
  pz : List ℚ
  ms : List ℚ
  count : ℕ
  com : Vec3
  total_mass : ℚ
  center : Vec3
  extent : Vec3
deriving DecidableEq, Repr

/-- The recursive `Octree` node: its scalar data plus the optional boxed
array of eight children (`children: Option<Box<[Octree; 8]>>`, modelled as an
optional list that construction always keeps at length 8). -/
inductive Octree : Type where
  | mk (data : NodeData) (children : Option (List Octree)) : Octree

namespace Octree

def data : Octree → NodeData
  | .mk d _ => d

def children : Octree → Option (List Octree)
  | .mk _ c => c

def count (t : Octree) : ℕ := t.data.count

def total_mass (t : Octree) : ℚ := t.data.total_mass

def com (t : Octree) : Vec3 := t.data.com

def center (t : Octree) : Vec3 := t.data.center

def extent (t : Octree) : Vec3 := t.data.extent

def idxs (t : Octree) : List ℕ := t.data.idxs

def px (t : Octree) : List ℚ := t.data.px

def py (t : Octree) : List ℚ := t.data.py

def pz (t : Octree) : List ℚ := t.data.pz

def ms (t : Octree) : List ℚ := t.data.ms

/-- `impl Default for Octree`: every slot of the bucket is zero-initialised. -/
def defaultData : NodeData :=
  { idxs := List.replicate 8 0
    px := List.replicate 8 0
    py := List.replicate 8 0
    pz := List.replicate 8 0
    ms := List.replicate 8 0
    count := 0
    com := Vec3.zero
    total_mass := 0
    center := Vec3.zero
    extent := Vec3.zero }

/-- `Octree::default()`. -/
def defaultTree : Octree := .mk defaultData none

/-- The `count < 8` branch of `Octree::add_point`: write the point into
bucket slot `count` and increment `count`. -/
def addToBucket (t : Octree) (idx : ℕ) (p : Vec3) (m : ℚ) : Octree :=
  match t with
  | .mk d ch =>
    .mk { d with
          idxs := d.idxs.set d.count idx
          px := d.px.set d.count p.x
          py := d.py.set d.count p.y
          pz := d.pz.set d.count p.z
          ms := d.ms.set d.count m
          count := d.count + 1 } ch

/-- The octant-code computation in `Octree::add_point`:
`(diff.x.is_sign_positive as usize) << 2 | (diff.y …) << 1 | (diff.z …)`.
`f32::is_sign_positive` on an exact difference is non-negativity. -/
def octantIdx (center p : Vec3) : ℕ :=
  let diff := p - center
  Nat.lor (Nat.shiftLeft (if 0 ≤ diff.x then 1 else 0) 2)
    (Nat.lor (Nat.shiftLeft (if 0 ≤ diff.y then 1 else 0) 1)
      (if 0 ≤ diff.z then 1 else 0))

/-- The fixed `offsets` table in `Octree::get_child`. -/
def offsets : List Vec3 :=
  [⟨-1, -1, -1⟩, ⟨-1, -1, 1⟩, ⟨-1, 1, -1⟩, ⟨-1, 1, 1⟩,
   ⟨1, -1, -1⟩, ⟨1, -1, 1⟩, ⟨1, 1, -1⟩, ⟨1, 1, 1⟩]

/-- The child-creation half of `Octree::get_child`: eight default children,
each given `extent = parent.extent / 2` and
`center = parent.center + parent.extent * offsets[i] / 4`. -/
def mkChildren (center extent : Vec3) : List Octree :=
  offsets.map fun off =>
    .mk { defaultData with
          extent := extent / (2 : ℚ)
          center := center + extent * off / (4 : ℚ) } none

/-- `Octree::add_point`.  When the bucket is full the point is routed into
the child at `octantIdx`; `get_child` is inlined into the two cases on
`children`.  In the `none` case the source recurses into the freshly created
child, whose bucket is empty, so that call immediately takes the
`count < 8` branch: here it is written as the direct `addToBucket`
(`add_point_fresh_child` below proves the two agree).  The out-of-range
guard in the `some` case is dead code: children lists always have length 8
(`octantIdx_lt` and the well-formedness invariant), matching the always
in-range Rust index `children[idx]`. -/
def add_point : Octree → ℕ → Vec3 → ℚ → Octree
  | .mk d ch, idx, p, m =>
    if d.count < 8 then
      addToBucket (.mk d ch) idx p m
    else
      let ci := octantIdx d.center p
      match ch with
      | some cs =>
        if h : ci < cs.length then
          .mk d (some (cs.set ci (add_point cs[ci] idx p m)))
        else
          .mk d (some cs)
      | none =>
        let cs := mkChildren d.center d.extent
        .mk d (some (cs.set ci (addToBucket (cs.getD ci defaultTree) idx p m)))
termination_by t => sizeOf t
decreasing_by
  simp only [Octree.mk.sizeOf_spec, Option.some.sizeOf_spec]
  have h1 : sizeOf cs[octantIdx d.center p] < sizeOf cs :=
    List.sizeOf_lt_of_mem (cs.getElem_mem h)
  omega

/-- `Octree::compute`: the bottom-up aggregation pass. -/
def compute : Octree → Octree
  | .mk d ch =>
    let com0 : Vec3 :=
      ⟨((d.px.zipWith (· * ·) d.ms)).sum,
       ((d.py.zipWith (· * ·) d.ms)).sum,
       ((d.pz.zipWith (· * ·) d.ms)).sum⟩
    let tm0 : ℚ := d.ms.sum
    match ch with
    | none =>
      .mk { d with
            total_mass := tm0
            com := if tm0 = 0 then Vec3.zero else com0 / tm0 } none
    | some cs =>
      let cs2 := cs.attach.map fun c => compute c.1
      let folded := cs2.foldl
        (fun a b => (a.1 + b.total_mass • b.com, a.2 + b.total_mass))
        (Vec3.zero, (0 : ℚ))
      let tm := tm0 + folded.2
      let cm := com0 + folded.1
      .mk { d with
            total_mass := tm
            com := if tm = 0 then Vec3.zero else cm / tm } (some cs2)
termination_by t => sizeOf t
decreasing_by
  simp only [Octree.mk.sizeOf_spec, Option.some.sizeOf_spec]
  have h1 : sizeOf c.1 < sizeOf cs := List.sizeOf_lt_of_mem c.2
  omega

/-- `Octree::find`.  Note that the source tests
`self.point.0.contains(&idx)`: it scans the whole fixed-size index array,
occupied or not, then searches the children in order. -/
def find : Octree → ℕ → Option Octree
  | .mk d ch, idx =>
    if idx ∈ d.idxs then
      some (.mk d ch)
    else
      match ch with
      | none => none
      | some cs => cs.attach.findSome? fun c => find c.1 idx
termination_by t => sizeOf t
decreasing_by
  simp only [Octree.mk.sizeOf_spec, Option.some.sizeOf_spec]
  have h1 : sizeOf c.1 < sizeOf cs := List.sizeOf_lt_of_mem c.2
  omega

/-- `Octree::construct`.  The `assert_eq!` on the input lengths is modelled
by returning `none` (the Rust panic aborts before any tree is produced);
`some` is the normal return. -/
def construct (points : List Vec3) (masses : List ℚ) : Option Octree :=
  if points.length = masses.length then
    match points with
    | [] => some defaultTree
    | p :: ps =>
      let min_bound := ps.foldl Vec3.minByComponent p
      let max_bound := ps.foldl Vec3.maxByComponent p
      let t0 : Octree :=
        .mk { defaultData with
              center := (min_bound + max_bound) / (2 : ℚ)
              extent := max_bound - min_bound } none
      let t1 := ((points.zip masses).enum).foldl
        (fun t x => add_point t x.1 x.2.1 x.2.2) t0
      some (compute t1)
  else
    none

/-! ### Derived observations and invariants (verification layer) -/

/-- The position stored in bucket slot `k` of node data `d`. -/
def slotPos (d : NodeData) (k : ℕ) : Vec3 :=
  ⟨d.px.getD k 0, d.py.getD k 0, d.pz.getD k 0⟩

/-- The occupied bucket entries of a node, slots `[0, count)` in order:
`(original index, x, y, z, mass)`. -/
def occupiedEntries (t : Octree) : List (ℕ × ℚ × ℚ × ℚ × ℚ) :=
  (List.range t.count).map fun k =>
    (t.idxs.getD k 0, t.px.getD k 0, t.py.getD k 0, t.pz.getD k 0, t.ms.getD k 0)

/-- Sum over every node of the tree of all 8 mass slots (unoccupied slots
hold 0, so this also equals the occupied sum on well-formed trees). -/
def massSum : Octree → ℚ
  | .mk d ch =>
    d.ms.sum +
      (match ch with
       | none => 0
       | some cs => ((cs.attach.map fun c => massSum c.1).sum))
termination_by t => sizeOf t
decreasing_by
  simp only [Octree.mk.sizeOf_spec, Option.some.sizeOf_spec]
  have h1 : sizeOf c.1 < sizeOf cs := List.sizeOf_lt_of_mem c.2
  omega

/-- Sum over every node of the tree of the masses in its occupied bucket
slots `[0, count)`. -/
def occupiedMassSum : Octree → ℚ
  | .mk d ch =>
    ((d.ms.take d.count).sum) +
      (match ch with
       | none => 0
       | some cs => ((cs.attach.map fun c => occupiedMassSum c.1).sum))
termination_by t => sizeOf t
decreasing_by
  simp only [Octree.mk.sizeOf_spec, Option.some.sizeOf_spec]
  have h1 : sizeOf c.1 < sizeOf cs := List.sizeOf_lt_of_mem c.2
  omega

/-- All original indices stored in occupied bucket slots anywhere in the
tree. -/
def storedIdxs : Octree → List ℕ
  | .mk d ch =>
    ((List.range d.count).map fun k => d.idxs.getD k 0) ++
      (match ch with
       | none => []
       | some cs => ((cs.attach.map fun c => storedIdxs c.1).flatten))
termination_by t => sizeOf t
decreasing_by
  simp only [Octree.mk.sizeOf_spec, Option.some.sizeOf_spec]
  have h1 : sizeOf c.1 < sizeOf cs := List.sizeOf_lt_of_mem c.2
  omega

/-- `p` lies in the axis-aligned region `[center - extent/2, center + extent/2]`
of node `t`, on all three axes. -/
def inRegion (t : Octree) (p : Vec3) : Prop :=
  t.center.x - t.extent.x / 2 ≤ p.x ∧ p.x ≤ t.center.x + t.extent.x / 2 ∧
  t.center.y - t.extent.y / 2 ≤ p.y ∧ p.y ≤ t.center.y + t.extent.y / 2 ∧
  t.center.z - t.extent.z / 2 ≤ p.z ∧ p.z ≤ t.center.z + t.extent.z / 2

/-- The node reached from `t` by following the child indices in `path`. -/
def nodeAt : Octree → List ℕ → Option Octree
  | t, [] => some t
  | t, i :: is =>
    match t.children with
    | none => none
    | some cs =>
      match cs[i]? with
      | none => none
      | some c => nodeAt c is

/-- The `j`-th child of `t`, when children exist and `j` is in range. -/
def childAt (t : Octree) (j : ℕ) : Option Octree :=
  match t.children with
  | none => none
  | some cs => cs[j]?

/-- Height of the tree (a leaf has depth 1). -/
def depth : Octree → ℕ
  | .mk _ ch =>
    1 + (match ch with
         | none => 0
         | some cs => ((cs.attach.map fun c => depth c.1).foldl max 0))
termination_by t => sizeOf t
decreasing_by
  simp only [Octree.mk.sizeOf_spec, Option.some.sizeOf_spec]
  have h1 : sizeOf c.1 < sizeOf cs := List.sizeOf_lt_of_mem c.2
  omega

/-- `Octree::add_point` written with explicit fuel and with the recursion of
the source kept literally, including the recursive `add_point` call into the
freshly created child in the `children == None` case.  `none` means the fuel
ran out before the descent found bucket room. -/
def add_pointF : ℕ → Octree → ℕ → Vec3 → ℚ → Option Octree
  | 0, _, _, _, _ => none
  | fuel + 1, .mk d ch, idx, p, m =>
    if d.count < 8 then
      some (addToBucket (.mk d ch) idx p m)
    else
      let ci := octantIdx d.center p
      match ch with
      | some cs =>
        if h : ci < cs.length then
          (add_pointF fuel cs[ci] idx p m).map fun c2 => .mk d (some (cs.set ci c2))
        else
          some (.mk d (some cs))
      | none =>
        let cs := mkChildren d.center d.extent
        (add_pointF fuel (cs.getD ci defaultTree) idx p m).map fun c2 =>
          .mk d (some (cs.set ci c2))

/-- Scalar-data well-formedness of one node: the five bucket lists have the
fixed length 8, `count ≤ 8`, and every unoccupied slot still holds its
zero-initialised index and mass. -/
def DataOK (d : NodeData) : Prop :=
  d.idxs.length = 8 ∧ d.px.length = 8 ∧ d.py.length = 8 ∧ d.pz.length = 8 ∧
  d.ms.length = 8 ∧ d.count ≤ 8 ∧
  (∀ k, d.count ≤ k → k < 8 → d.idxs.getD k 0 = 0 ∧ d.ms.getD k 0 = 0)

/-- Structural invariant of every tree construction produces: scalar data is
well formed at every node, children arrays have length 8, and each child's
geometry is the parent's geometry halved and shifted by the fixed octant
offset (the `get_child` formula). -/
inductive Inv : Octree → Prop where
  | mk (d : NodeData) (ch : Option (List Octree)) :
      DataOK d →
      (∀ cs, ch = some cs → cs.length = 8) →
      (∀ cs, ch = some cs → ∀ i (h : i < cs.length),
        (cs.get ⟨i, h⟩).extent = d.extent / (2 : ℚ) ∧
        (cs.get ⟨i, h⟩).center = d.center + d.extent * (offsets.getD i Vec3.zero) / (4 : ℚ)) →
      (∀ cs, ch = some cs → ∀ c ∈ cs, Inv c) →
      Inv (.mk d ch)

/-- Geometric invariant: extents are componentwise non-negative and the
position stored in every occupied bucket slot lies in its node's region. -/
inductive InBounds : Octree → Prop where
  | mk (d : NodeData) (ch : Option (List Octree)) :
      0 ≤ d.extent.x → 0 ≤ d.extent.y → 0 ≤ d.extent.z →
      (∀ k, k < d.count → inRegion (.mk d ch) (slotPos d k)) →
      (∀ cs, ch = some cs → ∀ c ∈ cs, InBounds c) →
      InBounds (.mk d ch)

/-- Storage invariant relative to an index-to-position map `pos`: every
occupied slot stores exactly the position of the original index it holds. -/
inductive Stores (pos : ℕ → Vec3) : Octree → Prop where
  | mk (d : NodeData) (ch : Option (List Octree)) :
      (∀ k, k < d.count → slotPos d k = pos (d.idxs.getD k 0)) →
      (∀ cs, ch = some cs → ∀ c ∈ cs, Stores pos c) →
      Stores pos (.mk d ch)

/-! ### Basic rewriting lemmas -/

@[simp] theorem data_mk (d : NodeData) (ch : Option (List Octree)) :
    (Octree.mk d ch).data = d := rfl

@[simp] theorem children_mk (d : NodeData) (ch : Option (List Octree)) :
    (Octree.mk d ch).children = ch := rfl

@[simp] theorem count_mk (d : NodeData) (ch : Option (List Octree)) :
    (Octree.mk d ch).count = d.count := rfl

@[simp] theorem total_mass_mk (d : NodeData) (ch : Option (List Octree)) :
    (Octree.mk d ch).total_mass = d.total_mass := rfl

@[simp] theorem com_mk (d : NodeData) (ch : Option (List Octree)) :
    (Octree.mk d ch).com = d.com := rfl

@[simp] theorem center_mk (d : NodeData) (ch : Option (List Octree)) :
    (Octree.mk d ch).center = d.center := rfl

@[simp] theorem extent_mk (d : NodeData) (ch : Option (List Octree)) :
    (Octree.mk d ch).extent = d.extent := rfl

@[simp] theorem idxs_mk (d : NodeData) (ch : Option (List Octree)) :
    (Octree.mk d ch).idxs = d.idxs := rfl

@[simp] theorem px_mk (d : NodeData) (ch : Option (List Octree)) :
    (Octree.mk d ch).px = d.px := rfl

@[simp] theorem py_mk (d : NodeData) (ch : Option (List Octree)) :
    (Octree.mk d ch).py = d.py := rfl

@[simp] theorem pz_mk (d : NodeData) (ch : Option (List Octree)) :
    (Octree.mk d ch).pz = d.pz := rfl

@[simp] theorem ms_mk (d : NodeData) (ch : Option (List Octree)) :
    (Octree.mk d ch).ms = d.ms := rfl

@[simp] theorem Vec3.add_x (a b : Vec3) : (a + b).x = a.x + b.x := rfl

@[simp] theorem Vec3.add_y (a b : Vec3) : (a + b).y = a.y + b.y := rfl

@[simp] theorem Vec3.add_z (a b : Vec3) : (a + b).z = a.z + b.z := rfl

@[simp] theorem Vec3.sub_x (a b : Vec3) : (a - b).x = a.x - b.x := rfl

@[simp] theorem Vec3.sub_y (a b : Vec3) : (a - b).y = a.y - b.y := rfl

@[simp] theorem Vec3.sub_z (a b : Vec3) : (a - b).z = a.z - b.z := rfl

@[simp] theorem Vec3.mul_x (a b : Vec3) : (a * b).x = a.x * b.x := rfl

@[simp] theorem Vec3.mul_y (a b : Vec3) : (a * b).y = a.y * b.y := rfl

@[simp] theorem Vec3.mul_z (a b : Vec3) : (a * b).z = a.z * b.z := rfl

@[simp] theorem Vec3.div_x (a : Vec3) (q : ℚ) : (a / q).x = a.x / q := rfl

@[simp] theorem Vec3.div_y (a : Vec3) (q : ℚ) : (a / q).y = a.y / q := rfl

@[simp] theorem Vec3.div_z (a : Vec3) (q : ℚ) : (a / q).z = a.z / q := rfl

@[simp] theorem Vec3.smul_x (q : ℚ) (a : Vec3) : (q • a).x = q * a.x := rfl

@[simp] theorem Vec3.smul_y (q : ℚ) (a : Vec3) : (q • a).y = q * a.y := rfl

@[simp] theorem Vec3.smul_z (q : ℚ) (a : Vec3) : (q • a).z = q * a.z := rfl

theorem massSum_mk_none (d : NodeData) : massSum (.mk d none) = d.ms.sum := by
  simp [massSum]

theorem massSum_mk_some (d : NodeData) (cs : List Octree) :
    massSum (.mk d (some cs)) = d.ms.sum + (cs.map massSum).sum := by
  rw [massSum]
  rw [List.attach_map_coe]

theorem occupiedMassSum_mk_none (d : NodeData) :
    occupiedMassSum (.mk d none) = (d.ms.take d.count).sum := by
  simp [occupiedMassSum]

theorem occupiedMassSum_mk_some (d : NodeData) (cs : List Octree) :
    occupiedMassSum (.mk d (some cs)) =
      (d.ms.take d.count).sum + (cs.map occupiedMassSum).sum := by
  rw [occupiedMassSum]
  rw [List.attach_map_coe]

theorem storedIdxs_mk_none (d : NodeData) :
    storedIdxs (.mk d none) = (List.range d.count).map fun k => d.idxs.getD k 0 := by
  simp [storedIdxs]

theorem storedIdxs_mk_some (d : NodeData) (cs : List Octree) :
    storedIdxs (.mk d (some cs)) =
      ((List.range d.count).map fun k => d.idxs.getD k 0) ++
        (cs.map storedIdxs).flatten := by
  rw [storedIdxs]
  rw [List.attach_map_coe]

theorem depth_mk_none (d : NodeData) : depth (.mk d none) = 1 := by
  simp [depth]

theorem depth_mk_some (d : NodeData) (cs : List Octree) :
    depth (.mk d (some cs)) = 1 + ((cs.map depth).foldl max 0) := by
  rw [depth]
  rw [List.attach_map_coe]

theorem find_mk (d : NodeData) (ch : Option (List Octree)) (idx : ℕ) :
    find (.mk d ch) idx =
      if idx ∈ d.idxs then some (.mk d ch)
      else
        match ch with
        | none => none
        | some cs => cs.attach.findSome? fun c => find c.1 idx := by
  rw [find.eq_def]

/-- `add_point` in the `count < 8` case appends to the bucket. -/
theorem add_point_room (d : NodeData) (ch : Option (List Octree)) (idx : ℕ)
    (p : Vec3) (m : ℚ) (h : d.count < 8) :
    add_point (.mk d ch) idx p m = addToBucket (.mk d ch) idx p m := by
  rw [add_point]
  simp [h]

/-- `add_point` on a full node with existing children recurses into the
child selected by the octant code. -/
theorem add_point_full_some (d : NodeData) (cs : List Octree) (idx : ℕ)
    (p : Vec3) (m : ℚ) (h8 : ¬ d.count < 8) (h : octantIdx d.center p < cs.length) :
    add_point (.mk d (some cs)) idx p m =
      .mk d (some (cs.set (octantIdx d.center p)
        (add_point (cs.get ⟨octantIdx d.center p, h⟩) idx p m))) := by
  rw [add_point]
  simp [h8, h]

/-- `add_point` on a full node without children creates all eight children
and pushes the point into the bucket of the selected fresh child. -/
theorem add_point_full_none (d : NodeData) (idx : ℕ) (p : Vec3) (m : ℚ)
    (h8 : ¬ d.count < 8) :
    add_point (.mk d none) idx p m =
      .mk d (some ((mkChildren d.center d.extent).set (octantIdx d.center p)
        (addToBucket ((mkChildren d.center d.extent).getD (octantIdx d.center p)
          defaultTree) idx p m))) := by
  rw [add_point]
  simp [h8]

/-- The octant code, written as the weighted sum of the three per-axis
non-negativity tests: the x test contributes bit 2 (weight 4), the y test
bit 1 (weight 2), the z test bit 0 (weight 1). -/
theorem octantIdx_eq (c p : Vec3) :
    octantIdx c p =
      (if 0 ≤ p.x - c.x then 4 else 0) + (if 0 ≤ p.y - c.y then 2 else 0) +
        (if 0 ≤ p.z - c.z then 1 else 0) := by
  unfold octantIdx
  simp only [Vec3.sub_x, Vec3.sub_y, Vec3.sub_z]
  by_cases h1 : 0 ≤ p.x - c.x <;> by_cases h2 : 0 ≤ p.y - c.y <;>
    by_cases h3 : 0 ≤ p.z - c.z <;> simp [h1, h2, h3] <;> decide

theorem octantIdx_lt (c p : Vec3) : octantIdx c p < 8 := by
  rw [octantIdx_eq]
  split_ifs <;> norm_num

@[simp] theorem mkChildren_length (c e : Vec3) : (mkChildren c e).length = 8 := rfl

theorem mkChildren_getD (c e : Vec3) (i : ℕ) (h : i < 8) :
    (mkChildren c e).getD i defaultTree =
      .mk { defaultData with
            extent := e / (2 : ℚ)
            center := c + e * (offsets.getD i Vec3.zero) / (4 : ℚ) } none := by
  interval_cases i <;> rfl

theorem addToBucket_mk (d : NodeData) (ch : Option (List Octree)) (idx : ℕ)
    (p : Vec3) (m : ℚ) :
    addToBucket (.mk d ch) idx p m =
      .mk { d with
            idxs := d.idxs.set d.count idx
            px := d.px.set d.count p.x
            py := d.py.set d.count p.y
            pz := d.pz.set d.count p.z
            ms := d.ms.set d.count m
            count := d.count + 1 } ch := rfl

/-! ### List helpers -/

theorem sum_set_getD (l : List ℚ) (n : ℕ) (a : ℚ) (h : n < l.length) :
    (l.set n a).sum = l.sum - l.getD n 0 + a := by
  have h1 := List.sum_set l n a
  have h2 : l.sum = (l.take (n + 1)).sum + (l.drop (n + 1)).sum := by
    rw [List.sum_take_add_sum_drop]
  rw [List.sum_take_succ l n h] at h2
  have h3 : l.getD n 0 = l[n] := by
    rw [List.getD_eq_getElem?_getD, List.getElem?_eq_getElem h]
    rfl
  rw [h1, h2, h3, if_pos h]
  ring

theorem getD_set_ne (l : List ℚ) (n k : ℕ) (a : ℚ) (h : n ≠ k) :
    (l.set n a).getD k 0 = l.getD k 0 := by
  rw [List.getD_eq_getElem?_getD, List.getD_eq_getElem?_getD, List.getElem?_set,
    if_neg h]

theorem getD_set_ne_nat (l : List ℕ) (n k : ℕ) (a : ℕ) (h : n ≠ k) :
    (l.set n a).getD k 0 = l.getD k 0 := by
  rw [List.getD_eq_getElem?_getD, List.getD_eq_getElem?_getD, List.getElem?_set,
    if_neg h]

theorem getD_set_self (l : List ℚ) (n : ℕ) (a : ℚ) (h : n < l.length) :
    (l.set n a).getD n 0 = a := by
  rw [List.getD_eq_getElem?_getD, List.getElem?_set, if_pos rfl, if_pos h]
  rfl

theorem getD_set_self_nat (l : List ℕ) (n : ℕ) (a : ℕ) (h : n < l.length) :
    (l.set n a).getD n 0 = a := by
  rw [List.getD_eq_getElem?_getD, List.getElem?_set, if_pos rfl, if_pos h]
  rfl

theorem sum_drop_zero (l : List ℚ) (n : ℕ) (hlen : ∀ k, n ≤ k → k < l.length → l.getD k 0 = 0) :
    (l.take n).sum = l.sum := by
  have h2 : l.sum = (l.take n).sum + (l.drop n).sum := by
    rw [List.sum_take_add_sum_drop]
  have h3 : (l.drop n).sum = 0 := by
    apply List.sum_eq_zero
    intro x hx
    rcases List.mem_iff_getElem.mp hx with ⟨j, hj, hxj⟩
    have hj2 : n + j < l.length := by
      have := List.length_drop n l ▸ hj
      omega
    have h4 : (l.drop n)[j] = l[n + j] := List.getElem_drop l
    have h5 : l.getD (n + j) 0 = 0 := hlen (n + j) (by omega) hj2
    rw [List.getD_eq_getElem?_getD, List.getElem?_eq_getElem hj2] at h5
    simp only [Option.getD_some] at h5
    rw [← hxj, h4, h5]
  rw [h2, h3, add_zero]

/-! ### Invariant preservation -/

theorem DataOK_defaultData : DataOK defaultData := by
  refine ⟨rfl, rfl, rfl, rfl, rfl, by norm_num [defaultData], ?_⟩
  intro k _ hk8
  constructor <;> (interval_cases k <;> rfl)

theorem DataOK_setGeom (c e : Vec3) :
    DataOK { defaultData with center := c, extent := e } := by
  refine ⟨rfl, rfl, rfl, rfl, rfl, by norm_num [defaultData], ?_⟩
  intro k _ hk8
  constructor <;> (interval_cases k <;> rfl)

theorem DataOK_addToBucket (d : NodeData) (idx : ℕ) (p : Vec3) (m : ℚ)
    (hd : DataOK d) (h : d.count < 8) :
    DataOK { d with
             idxs := d.idxs.set d.count idx
             px := d.px.set d.count p.x
             py := d.py.set d.count p.y
             pz := d.pz.set d.count p.z
             ms := d.ms.set d.count m
             count := d.count + 1 } := by
  obtain ⟨h1, h2, h3, h4, h5, h6, h7⟩ := hd
  refine ⟨by simp [h1], by simp [h2], by simp [h3], by simp [h4], by simp [h5],
    show d.count + 1 ≤ 8 by omega, ?_⟩
  intro k hk hk8
  have hk2 : d.count + 1 ≤ k := hk
  have hne : d.count ≠ k := by omega
  constructor
  · show (d.idxs.set d.count idx).getD k 0 = 0
    rw [getD_set_ne_nat _ _ _ _ hne]
    exact (h7 k (by omega) hk8).1
  · show (d.ms.set d.count m).getD k 0 = 0
    rw [getD_set_ne _ _ _ _ hne]
    exact (h7 k (by omega) hk8).2

theorem Inv_default : Inv defaultTree :=
  Inv.mk _ _ DataOK_defaultData (by intro cs h; cases h)
    (by intro cs h; cases h) (by intro cs h; cases h)

theorem Inv_root (c e : Vec3) :
    Inv (.mk { defaultData with center := c, extent := e } none) :=
  Inv.mk _ _ (DataOK_setGeom c e) (by intro cs h; cases h)
    (by intro cs h; cases h) (by intro cs h; cases h)

theorem addToBucket_center (t : Octree) (idx : ℕ) (p : Vec3) (m : ℚ) :
    (addToBucket t idx p m).center = t.center := by
  cases t with
  | mk d ch => rfl

theorem addToBucket_extent (t : Octree) (idx : ℕ) (p : Vec3) (m : ℚ) :
    (addToBucket t idx p m).extent = t.extent := by
  cases t with
  | mk d ch => rfl

theorem add_point_center (t : Octree) (idx : ℕ) (p : Vec3) (m : ℚ) :
    (add_point t idx p m).center = t.center := by
  cases t with
  | mk d ch =>
    by_cases h : d.count < 8
    · rw [add_point_room _ _ _ _ _ h, addToBucket_center]
    · cases ch with
      | none =>
        rw [add_point_full_none _ _ _ _ h]
        rfl
      | some cs =>
        by_cases hci : octantIdx d.center p < cs.length
        · rw [add_point_full_some _ _ _ _ _ h hci]
          rfl
        · rw [add_point]
          simp [h, hci]

theorem add_point_extent (t : Octree) (idx : ℕ) (p : Vec3) (m : ℚ) :
    (add_point t idx p m).extent = t.extent := by
  cases t with
  | mk d ch =>
    by_cases h : d.count < 8
    · rw [add_point_room _ _ _ _ _ h, addToBucket_extent]
    · cases ch with
      | none =>
        rw [add_point_full_none _ _ _ _ h]
        rfl
      | some cs =>
        by_cases hci : octantIdx d.center p < cs.length
        · rw [add_point_full_some _ _ _ _ _ h hci]
          rfl
        · rw [add_point]
          simp [h, hci]

theorem Inv_mkChildren_mem (c e : Vec3) :
    ∀ t ∈ mkChildren c e, Inv t := by
  intro t ht
  rcases List.mem_map.mp ht with ⟨off, _, rfl⟩
  exact Inv.mk _ _ (by
      refine ⟨rfl, rfl, rfl, rfl, rfl, by norm_num [defaultData], ?_⟩
      intro k _ hk8
      constructor <;> (interval_cases k <;> rfl))
    (by intro cs h; cases h) (by intro cs h; cases h) (by intro cs h; cases h)

theorem mkChildren_get_geometry (c e : Vec3) (i : ℕ) (h : i < (mkChildren c e).length) :
    ((mkChildren c e).get ⟨i, h⟩).extent = e / (2 : ℚ) ∧
      ((mkChildren c e).get ⟨i, h⟩).center = c + e * (offsets.getD i Vec3.zero) / (4 : ℚ) := by
  have h8 : i < 8 := by simpa using h
  interval_cases i <;> exact ⟨rfl, rfl⟩

theorem get_set_cases (cs : List Octree) (n i : ℕ) (a : Octree)
    (hi : i < (cs.set n a).length) :
    (cs.set n a).get ⟨i, hi⟩ =
      if n = i then a else cs.get ⟨i, by simpa using hi⟩ := by
  rw [List.get_eq_getElem, List.getElem_set]
  split
  · rfl
  · rw [List.get_eq_getElem]

theorem Inv_addToBucket (d : NodeData) (ch : Option (List Octree)) (idx : ℕ)
    (p : Vec3) (m : ℚ) (hinv : Inv (.mk d ch)) (h : d.count < 8) :
    Inv (addToBucket (.mk d ch) idx p m) := by
  cases hinv with
  | mk _ _ hd hlen hgeom hrec =>
    rw [addToBucket_mk]
    exact Inv.mk _ _ (DataOK_addToBucket d idx p m hd h) hlen hgeom hrec

theorem Inv_add_point (t : Octree) (idx : ℕ) (p : Vec3) (m : ℚ)
    (hinv : Inv t) : Inv (add_point t idx p m) := by
  induction t, idx, p, m using add_point.induct with
  | case1 d ch idx p m h =>
    rw [add_point_room _ _ _ _ _ h]
    exact Inv_addToBucket d ch idx p m hinv h
  | case2 d idx p m h8 ci cs hci ih =>
    rw [add_point_full_some _ _ _ _ _ h8 hci]
    cases hinv with
    | mk _ _ hd hlen hgeom hrec =>
      refine Inv.mk _ _ hd ?_ ?_ ?_
      · intro cs2 hcs2
        cases hcs2
        simpa using hlen cs rfl
      · intro cs2 hcs2 i hi
        cases hcs2
        have hi8 : i < cs.length := by simpa using hi
        rw [get_set_cases _ _ _ _ hi]
        by_cases hieq : octantIdx d.center p = i
        · rw [if_pos hieq]
          have hg := hgeom cs rfl (octantIdx d.center p) hci
          exact ⟨by rw [add_point_extent]; exact hg.1,
            by rw [add_point_center]; subst hieq; exact hg.2⟩
        · rw [if_neg hieq]
          exact hgeom cs rfl i hi8
      · intro cs2 hcs2 c hc
        cases hcs2
        rcases List.mem_or_eq_of_mem_set hc with hmem | rfl
        · exact hrec cs rfl c hmem
        · exact ih (hrec cs rfl _ (List.getElem_mem hci))
  | case3 d idx p m h8 ci cs hci =>
    rw [add_point]
    simp only [h8, if_false, hci, dif_neg, not_false_iff]
    exact hinv
  | case4 d idx p m h8 =>
    rw [add_point_full_none _ _ _ _ h8]
    cases hinv with
    | mk _ _ hd _ _ _ =>
      refine Inv.mk _ _ hd ?_ ?_ ?_
      · intro cs2 hcs2
        cases hcs2
        simp
      · intro cs2 hcs2 i hi
        cases hcs2
        have hi8 : i < (mkChildren d.center d.extent).length := by simpa using hi
        rw [get_set_cases _ _ _ _ hi]
        by_cases hieq : octantIdx d.center p = i
        · rw [if_pos hieq]
          subst hieq
          have hg := mkChildren_get_geometry d.center d.extent _ hi8
          have hgetD : (mkChildren d.center d.extent).getD (octantIdx d.center p) defaultTree
              = (mkChildren d.center d.extent).get ⟨octantIdx d.center p, hi8⟩ := by
            rw [List.getD_eq_getElem?_getD, List.getElem?_eq_getElem hi8]
            rfl
          exact ⟨by rw [addToBucket_extent, hgetD]; exact hg.1,
            by rw [addToBucket_center, hgetD]; exact hg.2⟩
        · rw [if_neg hieq]
          exact mkChildren_get_geometry d.center d.extent i hi8
      · intro cs2 hcs2 c hc
        cases hcs2
        rcases List.mem_or_eq_of_mem_set hc with hmem | rfl
        · exact Inv_mkChildren_mem d.center d.extent c hmem
        · have hlt : octantIdx d.center p < (mkChildren d.center d.extent).length := by
            simpa using octantIdx_lt d.center p
          have hgetD : (mkChildren d.center d.extent).getD (octantIdx d.center p) defaultTree
              = (mkChildren d.center d.extent).get ⟨octantIdx d.center p, hlt⟩ := by
            rw [List.getD_eq_getElem?_getD, List.getElem?_eq_getElem hlt]
            rfl
          have hfresh : Inv ((mkChildren d.center d.extent).getD (octantIdx d.center p)
              defaultTree) := by
            rw [hgetD]
            refine Inv_mkChildren_mem d.center d.extent _ ?_
            rw [List.get_eq_getElem]
            exact List.getElem_mem hlt
          cases hfh : (mkChildren d.center d.extent).getD (octantIdx d.center p)
              defaultTree with
          | mk dfc chfc =>
            have hc0 : dfc.count < 8 := by
              have : dfc.count = 0 := by
                rw [mkChildren_getD _ _ _ (by simpa using octantIdx_lt d.center p)] at hfh
                cases hfh
                rfl
              omega
            rw [hfh] at hfresh
            exact Inv_addToBucket dfc chfc idx p m hfresh hc0

/-! ### Mass accounting -/

theorem massSum_addToBucket (d : NodeData) (ch : Option (List Octree)) (idx : ℕ)
    (p : Vec3) (m : ℚ) (hd : DataOK d) (h : d.count < 8) :
    massSum (addToBucket (.mk d ch) idx p m) = massSum (.mk d ch) + m := by
  obtain ⟨_, _, _, _, h5, _, h7⟩ := hd
  have hset : (d.ms.set d.count m).sum = d.ms.sum + m := by
    rw [sum_set_getD d.ms d.count m (by omega)]
    rw [(h7 d.count (le_refl _) h).2]
    ring
  rw [addToBucket_mk]
  cases ch with
  | none => rw [massSum_mk_none, massSum_mk_none]; exact hset
  | some cs => rw [massSum_mk_some, massSum_mk_some]; rw [hset]; ring

theorem massSum_mkChildren (c e : Vec3) :
    ∀ t ∈ mkChildren c e, massSum t = 0 := by
  intro t ht
  rcases List.mem_map.mp ht with ⟨off, _, rfl⟩
  rw [massSum_mk_none]
  simp [defaultData]

theorem map_massSum_set_sum (cs : List Octree) (n : ℕ) (a : Octree)
    (h : n < cs.length) :
    ((cs.set n a).map massSum).sum =
      (cs.map massSum).sum - massSum (cs.get ⟨n, h⟩) + massSum a := by
  rw [List.map_set]
  rw [sum_set_getD _ n _ (by simpa using h)]
  have : (cs.map massSum).getD n 0 = massSum (cs.get ⟨n, h⟩) := by
    rw [List.getD_eq_getElem?_getD, List.getElem?_map,
      List.getElem?_eq_getElem h]
    rfl
  rw [this]

theorem massSum_add_point (t : Octree) (idx : ℕ) (p : Vec3) (m : ℚ)
    (hinv : Inv t) : massSum (add_point t idx p m) = massSum t + m := by
  induction t, idx, p, m using add_point.induct with
  | case1 d ch idx p m h =>
    rw [add_point_room _ _ _ _ _ h]
    cases hinv with
    | mk _ _ hd _ _ _ => exact massSum_addToBucket d ch idx p m hd h
  | case2 d idx p m h8 ci cs hci ih =>
    rw [add_point_full_some _ _ _ _ _ h8 hci]
    cases hinv with
    | mk _ _ hd hlen hgeom hrec =>
      rw [massSum_mk_some, massSum_mk_some]
      rw [map_massSum_set_sum cs _ _ hci]
      simp only [List.get_eq_getElem]
      rw [ih (hrec cs rfl _ (List.getElem_mem hci))]
      ring
  | case3 d idx p m h8 ci cs hci =>
    rw [add_point]
    simp only [h8, if_false, hci, dif_neg, not_false_iff]
    -- dead branch: children lists always have length 8 while the octant
    -- code is < 8, contradiction with the invariant
    exfalso
    cases hinv with
    | mk _ _ _ hlen _ _ =>
      exact hci (by rw [hlen cs rfl]; exact octantIdx_lt d.center p)
  | case4 d idx p m h8 =>
    rw [add_point_full_none _ _ _ _ h8]
    rw [massSum_mk_some, massSum_mk_none]
    have hlt : octantIdx d.center p < (mkChildren d.center d.extent).length := by
      simpa using octantIdx_lt d.center p
    rw [map_massSum_set_sum _ _ _ hlt]
    have hget0 : massSum ((mkChildren d.center d.extent).get
        ⟨octantIdx d.center p, hlt⟩) = 0 := by
      apply massSum_mkChildren
      rw [List.get_eq_getElem]
      exact List.getElem_mem hlt
    have hgetD : (mkChildren d.center d.extent).getD (octantIdx d.center p) defaultTree
        = (mkChildren d.center d.extent).get ⟨octantIdx d.center p, hlt⟩ := by
      rw [List.getD_eq_getElem?_getD, List.getElem?_eq_getElem hlt]
      rfl
    have hsum0 : ((mkChildren d.center d.extent).map massSum).sum = 0 :=
      List.sum_eq_zero (by
        intro x hx
        rcases List.mem_map.mp hx with ⟨c, hc, rfl⟩
        exact massSum_mkChildren d.center d.extent c hc)
    have hchild : (mkChildren d.center d.extent).get ⟨octantIdx d.center p, hlt⟩ =
        .mk { defaultData with
              extent := d.extent / (2 : ℚ)
              center := d.center + d.extent *
                (offsets.getD (octantIdx d.center p) Vec3.zero) / (4 : ℚ) } none := by
      rw [← hgetD, mkChildren_getD _ _ _ (octantIdx_lt d.center p)]
    have hfresh : massSum (addToBucket ((mkChildren d.center d.extent).getD
        (octantIdx d.center p) defaultTree) idx p m) =
        massSum ((mkChildren d.center d.extent).getD (octantIdx d.center p)
          defaultTree) + m := by
      rw [hgetD, hchild]
      exact massSum_addToBucket _ none idx p m (DataOK_setGeom _ _)
        (by norm_num [defaultData])
    rw [hfresh, hgetD, hget0, hsum0]
    ring

/-! ### The aggregation pass -/

theorem compute_mk_none (d : NodeData) :
    compute (.mk d none) =
      .mk { d with
            total_mass := d.ms.sum
            com := if d.ms.sum = 0 then Vec3.zero
                   else (⟨((d.px.zipWith (· * ·) d.ms)).sum,
                          ((d.py.zipWith (· * ·) d.ms)).sum,
                          ((d.pz.zipWith (· * ·) d.ms)).sum⟩ : Vec3) / d.ms.sum } none := by
  rw [compute]

theorem compute_mk_some (d : NodeData) (cs : List Octree) :
    compute (.mk d (some cs)) =
      (let cs2 := cs.map compute
       let folded := cs2.foldl
         (fun a b => (a.1 + b.total_mass • b.com, a.2 + b.total_mass))
         (Vec3.zero, (0 : ℚ))
       let tm := d.ms.sum + folded.2
       let cm := (⟨((d.px.zipWith (· * ·) d.ms)).sum,
                   ((d.py.zipWith (· * ·) d.ms)).sum,
                   ((d.pz.zipWith (· * ·) d.ms)).sum⟩ : Vec3) + folded.1
       .mk { d with
             total_mass := tm
             com := if tm = 0 then Vec3.zero else cm / tm } (some cs2)) := by
  rw [compute]
  rw [List.attach_map_coe]

theorem foldl_mass_snd (l : List Octree) (v : Vec3) (q : ℚ) :
    (l.foldl (fun a b => (a.1 + b.total_mass • b.com, a.2 + b.total_mass)) (v, q)).2 =
      q + (l.map total_mass).sum := by
  induction l generalizing v q with
  | nil => simp
  | cons c l ih =>
    rw [List.foldl_cons, ih]
    simp
    ring

theorem compute_total_mass (t : Octree) : (compute t).total_mass = massSum t := by
  induction t using compute.induct with
  | case1 d =>
    rw [compute_mk_none, massSum_mk_none]
    rfl
  | case2 d cs ih =>
    rw [compute_mk_some, massSum_mk_some]
    show d.ms.sum + _ = _
    rw [foldl_mass_snd]
    rw [List.map_map]
    have : (cs.map fun c => total_mass (compute c)) = cs.map massSum := by
      apply List.map_congr_left
      intro c hc
      exact ih ⟨c, hc⟩
    rw [show (total_mass ∘ compute) = (fun c => total_mass (compute c)) from rfl, this]
    ring

theorem compute_count (t : Octree) : (compute t).count = t.count := by
  cases t with
  | mk d ch =>
    cases ch with
    | none => rw [compute_mk_none]; rfl
    | some cs => rw [compute_mk_some]; rfl

theorem compute_center (t : Octree) : (compute t).center = t.center := by
  cases t with
  | mk d ch =>
    cases ch with
    | none => rw [compute_mk_none]; rfl
    | some cs => rw [compute_mk_some]; rfl

theorem compute_extent (t : Octree) : (compute t).extent = t.extent := by
  cases t with
  | mk d ch =>
    cases ch with
    | none => rw [compute_mk_none]; rfl
    | some cs => rw [compute_mk_some]; rfl

theorem compute_idxs (t : Octree) : (compute t).idxs = t.idxs := by
  cases t with
  | mk d ch =>
    cases ch with
    | none => rw [compute_mk_none]; rfl
    | some cs => rw [compute_mk_some]; rfl

theorem compute_px (t : Octree) : (compute t).px = t.px := by
  cases t with
  | mk d ch =>
    cases ch with
    | none => rw [compute_mk_none]; rfl
    | some cs => rw [compute_mk_some]; rfl

theorem compute_py (t : Octree) : (compute t).py = t.py := by
  cases t with
  | mk d ch =>
    cases ch with
    | none => rw [compute_mk_none]; rfl
    | some cs => rw [compute_mk_some]; rfl

theorem compute_pz (t : Octree) : (compute t).pz = t.pz := by
  cases t with
  | mk d ch =>
    cases ch with
    | none => rw [compute_mk_none]; rfl
    | some cs => rw [compute_mk_some]; rfl

theorem compute_ms (t : Octree) : (compute t).ms = t.ms := by
  cases t with
  | mk d ch =>
    cases ch with
    | none => rw [compute_mk_none]; rfl
    | some cs => rw [compute_mk_some]; rfl

theorem compute_children (t : Octree) :
    (compute t).children = t.children.map fun cs => cs.map compute := by
  cases t with
  | mk d ch =>
    cases ch with
    | none => rw [compute_mk_none]; rfl
    | some cs => rw [compute_mk_some]; rfl

theorem Inv_compute (t : Octree) (hinv : Inv t) : Inv (compute t) := by
  induction t using compute.induct with
  | case1 d =>
    rw [compute_mk_none]
    cases hinv with
    | mk _ _ hd _ _ _ =>
      exact Inv.mk _ _ hd (by intro cs h; cases h) (by intro cs h; cases h)
        (by intro cs h; cases h)
  | case2 d cs ih =>
    rw [compute_mk_some]
    cases hinv with
    | mk _ _ hd hlen hgeom hrec =>
      refine Inv.mk _ _ hd ?_ ?_ ?_
      · intro cs2 hcs2
        cases hcs2
        simpa using hlen cs rfl
      · intro cs2 hcs2 i hi
        cases hcs2
        have hi2 : i < cs.length := by simpa using hi
        have hmap : (cs.map compute).get ⟨i, by simpa using hi⟩ =
            compute (cs.get ⟨i, hi2⟩) := by
          simp only [List.get_eq_getElem, List.getElem_map]
        have hg := hgeom cs rfl i hi2
        constructor
        · show ((cs.map compute).get ⟨i, _⟩).extent = _
          rw [hmap, compute_extent]
          exact hg.1
        · show ((cs.map compute).get ⟨i, _⟩).center = _
          rw [hmap, compute_center]
          exact hg.2
      · intro cs2 hcs2 c hc
        cases hcs2
        rcases List.mem_map.mp hc with ⟨c0, hc0, rfl⟩
        exact ih ⟨c0, hc0⟩ (hrec cs rfl c0 hc0)

theorem occupiedMassSum_eq_massSum (t : Octree) (hinv : Inv t) :
    occupiedMassSum t = massSum t := by
  induction t using compute.induct with
  | case1 d =>
    rw [occupiedMassSum_mk_none, massSum_mk_none]
    cases hinv with
    | mk _ _ hd _ _ _ =>
      obtain ⟨_, _, _, _, h5, h6, h7⟩ := hd
      exact sum_drop_zero d.ms d.count (by
        intro k hk hk8
        exact (h7 k hk (by omega)).2)
  | case2 d cs ih =>
    rw [occupiedMassSum_mk_some, massSum_mk_some]
    cases hinv with
    | mk _ _ hd hlen hgeom hrec =>
      obtain ⟨_, _, _, _, h5, h6, h7⟩ := hd
      have h1 : (d.ms.take d.count).sum = d.ms.sum :=
        sum_drop_zero d.ms d.count (by
          intro k hk hk8
          exact (h7 k hk (by omega)).2)
      have h2 : cs.map occupiedMassSum = cs.map massSum :=
        List.map_congr_left (fun c hc => ih ⟨c, hc⟩ (hrec cs rfl c hc))
      rw [h1, h2]

theorem occupiedMassSum_compute (t : Octree) :
    occupiedMassSum (compute t) = occupiedMassSum t := by
  induction t using compute.induct with
  | case1 d =>
    rw [compute_mk_none, occupiedMassSum_mk_none, occupiedMassSum_mk_none]
  | case2 d cs ih =>
    rw [compute_mk_some]
    show occupiedMassSum (.mk _ (some (cs.map compute))) = _
    rw [occupiedMassSum_mk_some, occupiedMassSum_mk_some]
    have h2 : (cs.map compute).map occupiedMassSum = cs.map occupiedMassSum := by
      rw [List.map_map]
      exact List.map_congr_left (fun c hc => ih ⟨c, hc⟩)
    rw [h2]

/-! ### Construction-level accounting -/

theorem Inv_foldl (L : List (ℕ × Vec3 × ℚ)) (t : Octree) (hinv : Inv t) :
    Inv (L.foldl (fun t x => add_point t x.1 x.2.1 x.2.2) t) := by
  induction L generalizing t with
  | nil => exact hinv
  | cons a L ih =>
    rw [List.foldl_cons]
    exact ih _ (Inv_add_point _ _ _ _ hinv)

theorem massSum_foldl (L : List (ℕ × Vec3 × ℚ)) (t : Octree) (hinv : Inv t) :
    massSum (L.foldl (fun t x => add_point t x.1 x.2.1 x.2.2) t) =
      massSum t + (L.map fun x => x.2.2).sum := by
  induction L generalizing t with
  | nil => simp
  | cons a L ih =>
    rw [List.foldl_cons, ih _ (Inv_add_point _ _ _ _ hinv),
      massSum_add_point _ _ _ _ hinv]
    simp
    ring

theorem enum_zip_mass_sum (points : List Vec3) (masses : List ℚ)
    (h : points.length = masses.length) :
    (((points.zip masses).enum).map fun x => x.2.2).sum = masses.sum := by
  have h1 : (((points.zip masses).enum).map fun x => x.2.2) =
      (((points.zip masses).enum).map Prod.snd).map Prod.snd := by
    rw [List.map_map]
    rfl
  rw [h1, List.enum_map_snd, List.map_snd_zip _ _ (le_of_eq h.symm)]

theorem construct_nil : construct [] [] = some defaultTree := rfl

theorem construct_cons (p : Vec3) (ps : List Vec3) (masses : List ℚ)
    (h : (p :: ps).length = masses.length) :
    construct (p :: ps) masses =
      some (compute ((((p :: ps).zip masses).enum).foldl
        (fun t x => add_point t x.1 x.2.1 x.2.2)
        (.mk { defaultData with
               center := ((ps.foldl Vec3.minByComponent p) +
                 (ps.foldl Vec3.maxByComponent p)) / (2 : ℚ)
               extent := (ps.foldl Vec3.maxByComponent p) -
                 (ps.foldl Vec3.minByComponent p) } none))) := by
  rw [construct, if_pos h]

/-! ### Claim theorems -/

/-- C2: for equal-length inputs, the root's `total_mass` after `construct`
equals the sum of all input masses, and equals the sum over every node of
the masses in that node's occupied bucket slots. -/
theorem construct_mass_conservation (points : List Vec3) (masses : List ℚ)
    (t : Octree) (h : construct points masses = some t) :
    t.total_mass = masses.sum ∧ t.total_mass = occupiedMassSum t := by
  by_cases hlen : points.length = masses.length
  · cases points with
    | nil =>
      have hm : masses = [] := List.eq_nil_of_length_eq_zero (by simpa using hlen.symm)
      subst hm
      rw [construct_nil] at h
      cases h
      refine ⟨rfl, ?_⟩
      show (0 : ℚ) = occupiedMassSum (.mk defaultData none)
      rw [occupiedMassSum_mk_none]
      rfl
    | cons p ps =>
      rw [construct_cons p ps masses hlen] at h
      cases h
      have hinv0 : Inv (.mk { defaultData with
          center := ((ps.foldl Vec3.minByComponent p) +
            (ps.foldl Vec3.maxByComponent p)) / (2 : ℚ)
          extent := (ps.foldl Vec3.maxByComponent p) -
            (ps.foldl Vec3.minByComponent p) } none) := Inv_root _ _
      have hinv1 := Inv_foldl (((p :: ps).zip masses).enum) _ hinv0
      constructor
      · rw [compute_total_mass, massSum_foldl _ _ hinv0, massSum_mk_none]
        rw [enum_zip_mass_sum _ _ hlen]
        simp [defaultData]
      · rw [compute_total_mass, occupiedMassSum_compute,
          occupiedMassSum_eq_massSum _ hinv1]
  · rw [construct.eq_def, if_neg hlen] at h
    cases h

/-- C7: mismatched input lengths make `construct` fail fatally (modelled as
`none`, the Rust `assert_eq!` panic) before any tree state is produced. -/
theorem construct_length_mismatch (points : List Vec3) (masses : List ℚ)
    (h : points.length ≠ masses.length) :
    construct points masses = none := by
  rw [construct.eq_def, if_neg h]

/-- C7 witness. -/
theorem construct_length_mismatch_witness :
    ([] : List Vec3).length ≠ ([(1 : ℚ)]).length ∧
      construct [] [(1 : ℚ)] = none :=
  ⟨by decide, construct_length_mismatch [] [(1 : ℚ)] (by decide)⟩

/-- C8: constructing from zero points succeeds and yields the degenerate
default root: zero total mass, zero centre of mass, no children, empty
bucket, zero centre and extent. -/
theorem construct_empty_degenerate :
    construct [] [] = some defaultTree ∧
      defaultTree.total_mass = 0 ∧
      defaultTree.com = Vec3.zero ∧
      defaultTree.children = none ∧
      defaultTree.count = 0 ∧
      defaultTree.center = Vec3.zero ∧
      defaultTree.extent = Vec3.zero :=
  ⟨rfl, rfl, rfl, rfl, rfl, rfl, rfl⟩

/-- C9: construction is deterministic — two runs of `construct` on the same
input sequences produce identical trees (the embedding of the construction
logic contains no source of nondeterminism). -/
theorem construct_deterministic (points : List Vec3) (masses : List ℚ)
    (t1 t2 : Octree) (h1 : construct points masses = some t1)
    (h2 : construct points masses = some t2) : t1 = t2 := by
  rw [h1] at h2
  cases h2
  rfl

/-- C9 witness. -/
theorem construct_deterministic_witness :
    construct [] [] = some defaultTree ∧ defaultTree = defaultTree :=
  ⟨rfl, construct_deterministic [] [] defaultTree defaultTree rfl rfl⟩

/-- C1 (code bug): `find` tests `self.point.0.contains(&idx)`, scanning all
eight index slots including the zero-initialised unoccupied ones, so on the
tree built from empty input (the default tree) the never-inserted index `0`
is "found" at the root instead of reported absent. -/
theorem find_zero_on_empty_tree :
    construct [] [] = some defaultTree ∧
      find defaultTree 0 = some defaultTree ∧
      find defaultTree 0 ≠ none := by
  refine ⟨rfl, ?_, ?_⟩
  · show find (.mk defaultData none) 0 = some (.mk defaultData none)
    rw [find_mk]
    simp [defaultData]
  · show find (.mk defaultData none) 0 ≠ none
    rw [find_mk]
    simp [defaultData]

/-- C2 witness. -/
theorem construct_mass_conservation_witness :
    construct [] [] = some defaultTree ∧
      (defaultTree.total_mass = ([] : List ℚ).sum ∧
        defaultTree.total_mass = occupiedMassSum defaultTree) :=
  ⟨rfl, construct_mass_conservation [] [] defaultTree rfl⟩

/-! ### Termination of the insertion descent (fuel version) -/

theorem foldl_max_le_init (l : List ℕ) (a : ℕ) : a ≤ l.foldl max a := by
  induction l generalizing a with
  | nil => exact le_refl a
  | cons b l ih => exact le_trans (le_max_left a b) (ih (max a b))

theorem le_foldl_max (l : List ℕ) (a x : ℕ) (hx : x ∈ l) : x ≤ l.foldl max a := by
  induction l generalizing a with
  | nil => cases hx
  | cons b l ih =>
    rcases List.mem_cons.mp hx with rfl | hx2
    · exact le_trans (le_max_right a x) (foldl_max_le_init l (max a x))
    · exact ih (max a b) hx2

theorem depth_pos (t : Octree) : 1 ≤ depth t := by
  cases t with
  | mk d ch =>
    cases ch with
    | none => rw [depth_mk_none]
    | some cs => rw [depth_mk_some]; omega

theorem depth_child_lt (d : NodeData) (cs : List Octree) (c : Octree)
    (hc : c ∈ cs) : depth c < depth (.mk d (some cs)) := by
  rw [depth_mk_some]
  have := le_foldl_max (cs.map depth) 0 (depth c) (List.mem_map_of_mem depth hc)
  omega

theorem add_pointF_room (fuel : ℕ) (d : NodeData) (ch : Option (List Octree))
    (idx : ℕ) (p : Vec3) (m : ℚ) (h : d.count < 8) :
    add_pointF (fuel + 1) (.mk d ch) idx p m =
      some (addToBucket (.mk d ch) idx p m) := by
  show (if d.count < 8 then _ else _) = _
  rw [if_pos h]

theorem add_pointF_complete (fuel : ℕ) :
    ∀ (t : Octree) (idx : ℕ) (p : Vec3) (m : ℚ), depth t + 1 ≤ fuel →
      add_pointF fuel t idx p m = some (add_point t idx p m) := by
  induction fuel with
  | zero =>
    intro t idx p m h
    have := depth_pos t
    omega
  | succ fuel ih =>
    intro t idx p m h
    cases t with
    | mk d ch =>
      by_cases hc : d.count < 8
      · rw [add_point_room _ _ _ _ _ hc]
        show (if d.count < 8 then _ else _) = _
        rw [if_pos hc]
      · cases ch with
        | some cs =>
          by_cases hci : octantIdx d.center p < cs.length
          · rw [add_point_full_some _ _ _ _ _ hc hci]
            have hchild : depth cs[octantIdx d.center p] + 1 ≤ fuel := by
              have h1 := depth_child_lt d cs _ (List.getElem_mem hci)
              omega
            show (if d.count < 8 then _ else _) = _
            rw [if_neg hc]
            simp only [dif_pos hci]
            rw [ih _ idx p m hchild]
            simp only [Option.map_some', List.get_eq_getElem]
          · show (if d.count < 8 then _ else _) = _
            rw [if_neg hc]
            simp only [dif_neg hci]
            rw [add_point]
            simp only [hc, if_false, hci, dif_neg, not_false_iff]
        | none =>
          rw [add_point_full_none _ _ _ _ hc]
          have hfuel1 : 1 ≤ fuel := by
            rw [depth_mk_none] at h
            omega
          cases fuel with
          | zero => omega
          | succ f =>
            show (if d.count < 8 then _ else _) = _
            rw [if_neg hc]
            dsimp only
            have hfresh := mkChildren_getD d.center d.extent (octantIdx d.center p)
              (octantIdx_lt d.center p)
            rw [hfresh, add_pointF_room f _ _ idx p m (by norm_num [defaultData])]
            rw [Option.map_some']

/-- C10: every insertion descent terminates.  `add_pointF` is the literal
recursion of the source with an explicit fuel budget; fuel `depth t + 1`
(one level below the deepest existing node) always suffices and returns the
total function `add_point`: each step either finds bucket room and stops or
descends, and a freshly created child always has an empty bucket. -/
theorem add_point_terminates (t : Octree) (idx : ℕ) (p : Vec3) (m : ℚ) :
    add_pointF (depth t + 1) t idx p m = some (add_point t idx p m) :=
  add_pointF_complete (depth t + 1) t idx p m (le_refl _)

/-! ### Octant routing (C5) -/

theorem add_point_fresh_child (c e : Vec3) (i idx : ℕ) (p : Vec3) (m : ℚ)
    (h : i < 8) :
    add_point ((mkChildren c e).getD i defaultTree) idx p m =
      addToBucket ((mkChildren c e).getD i defaultTree) idx p m := by
  rw [mkChildren_getD _ _ _ h]
  exact add_point_room _ _ _ _ _ (by norm_num [defaultData])

/-- C5: on a full bucket (`count = 8`), `add_point` recurses into the child
whose index is the octant code: per-axis non-negativity of
`position - center`, x contributing bit 2, y bit 1, z bit 0. -/
theorem full_node_routes_to_octant_child (d : NodeData) (idx : ℕ) (p : Vec3)
    (m : ℚ) (h8 : d.count = 8) :
    (octantIdx d.center p =
      (if 0 ≤ p.x - d.center.x then 4 else 0) +
        (if 0 ≤ p.y - d.center.y then 2 else 0) +
        (if 0 ≤ p.z - d.center.z then 1 else 0) ∧
      octantIdx d.center p < 8) ∧
    (∀ cs : List Octree, cs.length = 8 →
      add_point (.mk d (some cs)) idx p m =
        .mk d (some (cs.set (octantIdx d.center p)
          (add_point (cs.getD (octantIdx d.center p) defaultTree) idx p m)))) ∧
    (add_point (.mk d none) idx p m =
      .mk d (some ((mkChildren d.center d.extent).set (octantIdx d.center p)
        (add_point ((mkChildren d.center d.extent).getD (octantIdx d.center p)
          defaultTree) idx p m)))) := by
  have hnot : ¬ d.count < 8 := by omega
  refine ⟨⟨octantIdx_eq d.center p, octantIdx_lt d.center p⟩, ?_, ?_⟩
  · intro cs hlen
    have hci : octantIdx d.center p < cs.length := by
      rw [hlen]
      exact octantIdx_lt d.center p
    rw [add_point_full_some _ _ _ _ _ hnot hci]
    have : cs.getD (octantIdx d.center p) defaultTree =
        cs.get ⟨octantIdx d.center p, hci⟩ := by
      rw [List.getD_eq_getElem?_getD, List.getElem?_eq_getElem hci]
      rfl
    rw [this]
  · rw [add_point_full_none _ _ _ _ hnot,
      add_point_fresh_child _ _ _ _ _ _ (octantIdx_lt d.center p)]

/-- C5 witness. -/
theorem full_node_routes_to_octant_child_witness :
    ({ defaultData with count := 8 } : NodeData).count = 8 ∧
      (octantIdx ({ defaultData with count := 8 } : NodeData).center ⟨1, 1, 1⟩ =
        (if (0 : ℚ) ≤ 1 - 0 then 4 else 0) + (if (0 : ℚ) ≤ 1 - 0 then 2 else 0) +
          (if (0 : ℚ) ≤ 1 - 0 then 1 else 0) ∧
        octantIdx ({ defaultData with count := 8 } : NodeData).center ⟨1, 1, 1⟩ < 8) ∧
      (∀ cs : List Octree, cs.length = 8 →
        add_point (.mk { defaultData with count := 8 } (some cs)) 9 ⟨1, 1, 1⟩ 1 =
          .mk { defaultData with count := 8 }
            (some (cs.set (octantIdx ({ defaultData with count := 8 } : NodeData).center
              ⟨1, 1, 1⟩)
              (add_point (cs.getD (octantIdx ({ defaultData with count := 8 } :
                NodeData).center ⟨1, 1, 1⟩) defaultTree) 9 ⟨1, 1, 1⟩ 1)))) ∧
      (add_point (.mk { defaultData with count := 8 } none) 9 ⟨1, 1, 1⟩ 1 =
        .mk { defaultData with count := 8 }
          (some ((mkChildren ({ defaultData with count := 8 } : NodeData).center
            ({ defaultData with count := 8 } : NodeData).extent).set
            (octantIdx ({ defaultData with count := 8 } : NodeData).center ⟨1, 1, 1⟩)
            (add_point ((mkChildren ({ defaultData with count := 8 } : NodeData).center
              ({ defaultData with count := 8 } : NodeData).extent).getD
              (octantIdx ({ defaultData with count := 8 } : NodeData).center ⟨1, 1, 1⟩)
              defaultTree) 9 ⟨1, 1, 1⟩ 1)))) :=
  ⟨rfl, full_node_routes_to_octant_child { defaultData with count := 8 } 9 ⟨1, 1, 1⟩ 1 rfl⟩

/-! ### Node addressing and bucket stability -/

theorem nodeAt_nil (t : Octree) : nodeAt t [] = some t := rfl

theorem nodeAt_cons (t : Octree) (i : ℕ) (is : List ℕ) :
    nodeAt t (i :: is) =
      match t.children with
      | none => none
      | some cs =>
        match cs[i]? with
        | none => none
        | some c => nodeAt c is := rfl

theorem occupiedEntries_mk_irrel (d : NodeData) (ch ch2 : Option (List Octree)) :
    occupiedEntries (.mk d ch) = occupiedEntries (.mk d ch2) := rfl

theorem occupiedEntries_addToBucket (d : NodeData) (ch : Option (List Octree))
    (idx : ℕ) (p : Vec3) (m : ℚ) (hd : DataOK d) (h : d.count < 8) :
    occupiedEntries (addToBucket (.mk d ch) idx p m) =
      occupiedEntries (.mk d ch) ++ [(idx, p.x, p.y, p.z, m)] := by
  obtain ⟨h1, h2, h3, h4, h5, _, _⟩ := hd
  rw [addToBucket_mk]
  show ((List.range (d.count + 1)).map fun k =>
      ((d.idxs.set d.count idx).getD k 0, (d.px.set d.count p.x).getD k 0,
        (d.py.set d.count p.y).getD k 0, (d.pz.set d.count p.z).getD k 0,
        (d.ms.set d.count m).getD k 0)) =
    ((List.range d.count).map fun k =>
      (d.idxs.getD k 0, d.px.getD k 0, d.py.getD k 0, d.pz.getD k 0,
        d.ms.getD k 0)) ++ [(idx, p.x, p.y, p.z, m)]
  rw [List.range_succ, List.map_append]
  congr 1
  · apply List.map_congr_left
    intro k hk
    have hklt : k < d.count := List.mem_range.mp hk
    have hne : d.count ≠ k := by omega
    rw [getD_set_ne_nat _ _ _ _ hne, getD_set_ne _ _ _ _ hne,
      getD_set_ne _ _ _ _ hne, getD_set_ne _ _ _ _ hne, getD_set_ne _ _ _ _ hne]
  · show [((d.idxs.set d.count idx).getD d.count 0,
        (d.px.set d.count p.x).getD d.count 0,
        (d.py.set d.count p.y).getD d.count 0,
        (d.pz.set d.count p.z).getD d.count 0,
        (d.ms.set d.count m).getD d.count 0)] = [(idx, p.x, p.y, p.z, m)]
    rw [getD_set_self_nat _ _ _ (by rw [h1]; omega),
      getD_set_self _ _ _ (by rw [h2]; omega),
      getD_set_self _ _ _ (by rw [h3]; omega),
      getD_set_self _ _ _ (by rw [h4]; omega),
      getD_set_self _ _ _ (by rw [h5]; omega)]

theorem count_addToBucket (d : NodeData) (ch : Option (List Octree)) (idx : ℕ)
    (p : Vec3) (m : ℚ) :
    (addToBucket (.mk d ch) idx p m).count = d.count + 1 := rfl

theorem nodeAt_add_point_preserved (t : Octree) (idx : ℕ) (p : Vec3) (m : ℚ)
    (hinv : Inv t) :
    ∀ (q : List ℕ) (n : Octree), nodeAt t q = some n →
      ∃ n2, nodeAt (add_point t idx p m) q = some n2 ∧
        n2.center = n.center ∧ n2.extent = n.extent ∧
        n.count ≤ n2.count ∧
        (occupiedEntries n2 = occupiedEntries n ∨
          occupiedEntries n2 = occupiedEntries n ++ [(idx, p.x, p.y, p.z, m)]) ∧
        (n.count = 8 → occupiedEntries n2 = occupiedEntries n) := by
  revert hinv
  induction t, idx, p, m using add_point.induct with
  | case1 d ch idx p m h =>
    intro hinv q n hq
    rw [add_point_room _ _ _ _ _ h]
    cases hinv with
    | mk _ _ hd _ _ _ =>
      cases q with
      | nil =>
        rw [nodeAt_nil] at hq
        cases hq
        refine ⟨addToBucket (.mk d ch) idx p m, nodeAt_nil _, rfl, rfl, ?_, ?_, ?_⟩
        · rw [count_addToBucket]
          show d.count ≤ d.count + 1
          omega
        · right
          exact occupiedEntries_addToBucket d ch idx p m hd h
        · intro he
          rw [count_mk] at he
          omega
      | cons i is =>
        refine ⟨n, ?_, rfl, rfl, le_refl _, Or.inl rfl, fun _ => rfl⟩
        rw [nodeAt_cons] at hq
        rw [nodeAt_cons]
        exact hq
  | case2 d idx p m h8 ci cs hci ih =>
    intro hinv q n hq
    rw [add_point_full_some _ _ _ _ _ h8 hci]
    cases hinv with
    | mk _ _ hd hlen hgeom hrec =>
      cases q with
      | nil =>
        rw [nodeAt_nil] at hq
        cases hq
        exact ⟨_, nodeAt_nil _, rfl, rfl, le_refl _, Or.inl rfl, fun _ => rfl⟩
      | cons i is =>
        rw [nodeAt_cons] at hq
        simp only [children_mk] at hq
        rw [nodeAt_cons]
        simp only [children_mk]
        by_cases hieq : octantIdx d.center p = i
        · subst hieq
          have hset : (cs.set (octantIdx d.center p)
              (add_point (cs.get ⟨octantIdx d.center p, hci⟩) idx p m))[octantIdx
                d.center p]? =
              some (add_point (cs.get ⟨octantIdx d.center p, hci⟩) idx p m) := by
            rw [List.getElem?_set, if_pos rfl, if_pos (by simpa using hci)]
          rw [hset]
          rw [List.getElem?_eq_getElem hci] at hq
          have hq2 : nodeAt cs[octantIdx d.center p] is = some n := hq
          have hchildinv : Inv cs[octantIdx d.center p] :=
            hrec cs rfl _ (List.getElem_mem hci)
          rcases ih hchildinv is n hq2 with ⟨n2, hn2, hfacts⟩
          refine ⟨n2, ?_, hfacts⟩
          simpa only [List.get_eq_getElem] using hn2
        · have hset : (cs.set (octantIdx d.center p)
              (add_point (cs.get ⟨octantIdx d.center p, hci⟩) idx p m))[i]? = cs[i]? := by
            rw [List.getElem?_set, if_neg hieq]
          rw [hset]
          exact ⟨n, hq, rfl, rfl, le_refl _, Or.inl rfl, fun _ => rfl⟩
  | case3 d idx p m h8 ci cs hci =>
    intro hinv q n hq
    rw [add_point]
    simp only [h8, if_false, hci, dif_neg, not_false_iff]
    exact ⟨n, hq, rfl, rfl, le_refl _, Or.inl rfl, fun _ => rfl⟩
  | case4 d idx p m h8 =>
    intro hinv q n hq
    rw [add_point_full_none _ _ _ _ h8]
    cases q with
    | nil =>
      rw [nodeAt_nil] at hq
      cases hq
      refine ⟨_, nodeAt_nil _, rfl, rfl, le_refl _, ?_, ?_⟩
      · left
        exact occupiedEntries_mk_irrel d _ none
      · intro _
        exact occupiedEntries_mk_irrel d _ none
    | cons i is =>
      rw [nodeAt_cons] at hq
      simp only [children_mk] at hq
      cases hq

theorem nodeAt_compute (t : Octree) (q : List ℕ) :
    nodeAt (compute t) q = (nodeAt t q).map compute := by
  induction q generalizing t with
  | nil => rfl
  | cons i is ih =>
    rw [nodeAt_cons, nodeAt_cons, compute_children]
    cases hch : t.children with
    | none => rfl
    | some cs =>
      simp only [Option.map_some']
      rw [List.getElem?_map]
      cases hcsi : cs[i]? with
      | none => rfl
      | some c =>
        simp only [Option.map_some']
        exact ih c

theorem occupiedEntries_compute (t : Octree) :
    occupiedEntries (compute t) = occupiedEntries t := by
  show ((List.range (compute t).count).map fun k =>
      ((compute t).idxs.getD k 0, (compute t).px.getD k 0, (compute t).py.getD k 0,
        (compute t).pz.getD k 0, (compute t).ms.getD k 0)) = _
  rw [compute_count, compute_idxs, compute_px, compute_py, compute_pz, compute_ms]
  rfl

/-- C4: when a full node without children routes a point, all eight children
are created at once, child `i` receiving `extent = parent.extent / 2` and
`center = parent.center + parent.extent * offsets[i] / 4`; and the geometry
(`center`, `extent`) of every already existing node is never recomputed by
later insertions or by the aggregation pass. -/
theorem children_geometry_fixed (d : NodeData) (idx : ℕ) (p : Vec3) (m : ℚ)
    (t : Octree) (q : List ℕ) (n : Octree) (hinv : Inv t)
    (h8 : ¬ d.count < 8) (hq : nodeAt t q = some n) :
    ((add_point (.mk d none) idx p m).children ≠ none ∧
      (∀ j, j < 8 → ∃ c, childAt (add_point (.mk d none) idx p m) j = some c ∧
        c.extent = d.extent / (2 : ℚ) ∧
        c.center = d.center + d.extent * (offsets.getD j Vec3.zero) / (4 : ℚ))) ∧
    (∃ n2, nodeAt (add_point t idx p m) q = some n2 ∧
      n2.center = n.center ∧ n2.extent = n.extent) ∧
    (∃ n3, nodeAt (compute t) q = some n3 ∧
      n3.center = n.center ∧ n3.extent = n.extent) := by
  refine ⟨⟨?_, ?_⟩, ?_, ?_⟩
  · rw [add_point_full_none _ _ _ _ h8]
    simp
  · intro j hj
    rw [add_point_full_none _ _ _ _ h8]
    have hfresh := mkChildren_getD d.center d.extent (octantIdx d.center p)
      (octantIdx_lt d.center p)
    have hj8 : j < (mkChildren d.center d.extent).length := by simpa using hj
    show ∃ c, ((mkChildren d.center d.extent).set (octantIdx d.center p)
        (addToBucket ((mkChildren d.center d.extent).getD (octantIdx d.center p)
          defaultTree) idx p m))[j]? = some c ∧
        c.extent = d.extent / (2 : ℚ) ∧
        c.center = d.center + d.extent * (offsets.getD j Vec3.zero) / (4 : ℚ)
    by_cases hje : octantIdx d.center p = j
    · subst hje
      have hc : ((mkChildren d.center d.extent).set (octantIdx d.center p)
          (addToBucket ((mkChildren d.center d.extent).getD (octantIdx d.center p)
            defaultTree) idx p m))[octantIdx d.center p]? =
          some (addToBucket ((mkChildren d.center d.extent).getD
            (octantIdx d.center p) defaultTree) idx p m) := by
        rw [List.getElem?_set, if_pos rfl, if_pos hj8]
      refine ⟨_, hc, ?_, ?_⟩
      · rw [addToBucket_extent, hfresh]
        rfl
      · rw [addToBucket_center, hfresh]
        rfl
    · have hc : ((mkChildren d.center d.extent).set (octantIdx d.center p)
          (addToBucket ((mkChildren d.center d.extent).getD (octantIdx d.center p)
            defaultTree) idx p m))[j]? =
          some ((mkChildren d.center d.extent).get ⟨j, hj8⟩) := by
        rw [List.getElem?_set, if_neg hje, List.getElem?_eq_getElem hj8]
        rfl
      have hg := mkChildren_get_geometry d.center d.extent j hj8
      exact ⟨_, hc, hg.1, hg.2⟩
  · exact match nodeAt_add_point_preserved t idx p m hinv q n hq with
      | ⟨n2, h1, h2, h3, _, _, _⟩ => ⟨n2, h1, h2, h3⟩
  · rw [nodeAt_compute, hq, Option.map_some']
    exact ⟨compute n, rfl, compute_center n, compute_extent n⟩

/-- C4 witness. -/
theorem children_geometry_fixed_witness :
    Inv defaultTree ∧ ¬ ({ defaultData with count := 8 } : NodeData).count < 8 ∧
      nodeAt defaultTree [] = some defaultTree ∧
      ((add_point (.mk { defaultData with count := 8 } none) 9 ⟨1, 1, 1⟩ 1).children ≠ none ∧
        (∀ j, j < 8 →
          ∃ c, childAt (add_point (.mk { defaultData with count := 8 } none) 9
            ⟨1, 1, 1⟩ 1) j = some c ∧
            c.extent = ({ defaultData with count := 8 } : NodeData).extent / (2 : ℚ) ∧
            c.center = ({ defaultData with count := 8 } : NodeData).center +
              ({ defaultData with count := 8 } : NodeData).extent *
                (offsets.getD j Vec3.zero) / (4 : ℚ))) :=
  ⟨Inv_default, by norm_num, rfl,
    (children_geometry_fixed { defaultData with count := 8 } 9 ⟨1, 1, 1⟩ 1
      defaultTree [] defaultTree Inv_default (by norm_num) rfl).1⟩

/-- C6: once a node's bucket is full its stored points never migrate: along
every path, an insertion either leaves a node's occupied bucket entries
unchanged or appends the new point at the end (so a bucket always holds the
first up-to-8 points routed to that node, in arrival order), a node whose
bucket is full is left exactly as it was, and the aggregation pass changes
no bucket anywhere. -/
theorem bucket_points_never_migrate (t : Octree) (idx : ℕ) (p : Vec3) (m : ℚ)
    (q : List ℕ) (n : Octree) (hinv : Inv t) (hq : nodeAt t q = some n) :
    (∃ n2, nodeAt (add_point t idx p m) q = some n2 ∧
      (occupiedEntries n2 = occupiedEntries n ∨
        occupiedEntries n2 = occupiedEntries n ++ [(idx, p.x, p.y, p.z, m)]) ∧
      (n.count = 8 → occupiedEntries n2 = occupiedEntries n)) ∧
    nodeAt (compute t) q = some (compute n) ∧
    occupiedEntries (compute n) = occupiedEntries n := by
  refine ⟨?_, ?_, occupiedEntries_compute n⟩
  · rcases nodeAt_add_point_preserved t idx p m hinv q n hq with
      ⟨n2, h1, _, _, _, h5, h6⟩
    exact ⟨n2, h1, h5, h6⟩
  · rw [nodeAt_compute, hq, Option.map_some']

/-- C6 witness. -/
theorem bucket_points_never_migrate_witness :
    Inv defaultTree ∧ nodeAt defaultTree [] = some defaultTree ∧
      (∃ n2, nodeAt (add_point defaultTree 0 ⟨1, 1, 1⟩ 1) [] = some n2 ∧
        (occupiedEntries n2 = occupiedEntries defaultTree ∨
          occupiedEntries n2 = occupiedEntries defaultTree ++ [(0, 1, 1, 1, 1)]) ∧
        (defaultTree.count = 8 → occupiedEntries n2 = occupiedEntries defaultTree)) :=
  ⟨Inv_default, rfl,
    (bucket_points_never_migrate defaultTree 0 ⟨1, 1, 1⟩ 1 [] defaultTree
      Inv_default rfl).1⟩

/-! ### Lookup helpers -/

theorem findSome?_attach (cs : List Octree) (f : Octree → Option Octree) :
    (cs.attach.findSome? fun c => f c.1) = cs.findSome? f := by
  induction cs with
  | nil => rfl
  | cons a l ih =>
    rw [List.attach_cons, List.findSome?_cons, List.findSome?_cons]
    cases hfa : f a with
    | some b => rfl
    | none =>
      rw [List.findSome?_map]
      exact ih

theorem findSome?_congr (l : List Octree) (f g : Octree → Option Octree)
    (h : ∀ c ∈ l, f c = g c) : l.findSome? f = l.findSome? g := by
  induction l with
  | nil => rfl
  | cons a l ih =>
    rw [List.findSome?_cons, List.findSome?_cons, h a (List.mem_cons_self a l)]
    cases hga : g a with
    | some b => rfl
    | none => exact ih fun c hc => h c (List.mem_cons_of_mem a hc)

theorem findSome?_map_compute (l : List Octree) (f : Octree → Option Octree) :
    (l.findSome? fun c => (f c).map compute) = (l.findSome? f).map compute := by
  induction l with
  | nil => rfl
  | cons a l ih =>
    rw [List.findSome?_cons, List.findSome?_cons]
    cases hfa : f a with
    | some b => rfl
    | none => exact ih

theorem find_mk_some (d : NodeData) (cs : List Octree) (i : ℕ) :
    find (.mk d (some cs)) i =
      if i ∈ d.idxs then some (.mk d (some cs))
      else cs.findSome? fun c => find c i := by
  rw [find_mk]
  by_cases hm : i ∈ d.idxs
  · simp only [if_pos hm]
  · simp only [if_neg hm]
    exact findSome?_attach cs fun c => find c i

theorem find_mk_none (d : NodeData) (i : ℕ) :
    find (.mk d none) i =
      if i ∈ d.idxs then some (.mk d none) else none := by
  rw [find_mk]

theorem findSome?_isSome_of_mem (cs : List Octree) (f : Octree → Option Octree)
    (c : Octree) (hc : c ∈ cs) (y : Octree) (hy : f c = some y) :
    ∃ z, cs.findSome? f = some z := by
  induction cs with
  | nil => cases hc
  | cons a l ih =>
    rw [List.findSome?_cons]
    cases ha : f a with
    | some b => exact ⟨b, rfl⟩
    | none =>
      rcases List.mem_cons.mp hc with rfl | hc2
      · rw [ha] at hy
        cases hy
      · exact ih hc2

/-- `find` commutes with the aggregation pass: `compute` touches no index
slot and maps every node in place. -/
theorem find_compute (t : Octree) (i : ℕ) :
    find (compute t) i = (find t i).map compute := by
  induction t using compute.induct with
  | case1 d =>
    rw [compute_mk_none, find_mk_none, find_mk_none]
    dsimp only
    by_cases hm : i ∈ d.idxs
    · rw [if_pos hm, if_pos hm, Option.map_some', compute_mk_none]
    · rw [if_neg hm, if_neg hm]
      rfl
  | case2 d cs ih =>
    rw [compute_mk_some, find_mk_some, find_mk_some]
    dsimp only
    by_cases hm : i ∈ d.idxs
    · rw [if_pos hm, if_pos hm, Option.map_some', compute_mk_some]
    · rw [if_neg hm, if_neg hm]
      rw [List.findSome?_map]
      have h1 : ∀ c ∈ cs, ((fun c => find c i) ∘ compute) c =
          (fun c => (find c i).map compute) c := by
        intro c hc
        exact ih ⟨c, hc⟩
      rw [findSome?_congr cs _ _ h1, findSome?_map_compute]

/-! ### Bounding-box geometry -/

theorem foldl_min_le_init_x (l : List Vec3) (a : Vec3) :
    (l.foldl Vec3.minByComponent a).x ≤ a.x ∧
      (l.foldl Vec3.minByComponent a).y ≤ a.y ∧
      (l.foldl Vec3.minByComponent a).z ≤ a.z := by
  induction l generalizing a with
  | nil => exact ⟨le_refl _, le_refl _, le_refl _⟩
  | cons b l ih =>
    rw [List.foldl_cons]
    rcases ih (Vec3.minByComponent a b) with ⟨hx, hy, hz⟩
    exact ⟨le_trans hx (min_le_left _ _), le_trans hy (min_le_left _ _),
      le_trans hz (min_le_left _ _)⟩

theorem foldl_min_le_mem (l : List Vec3) (a q : Vec3) (hq : q ∈ l) :
    (l.foldl Vec3.minByComponent a).x ≤ q.x ∧
      (l.foldl Vec3.minByComponent a).y ≤ q.y ∧
      (l.foldl Vec3.minByComponent a).z ≤ q.z := by
  induction l generalizing a with
  | nil => cases hq
  | cons b l ih =>
    rw [List.foldl_cons]
    rcases List.mem_cons.mp hq with rfl | hq2
    · rcases foldl_min_le_init_x l (Vec3.minByComponent a q) with ⟨hx, hy, hz⟩
      exact ⟨le_trans hx (min_le_right _ _), le_trans hy (min_le_right _ _),
        le_trans hz (min_le_right _ _)⟩
    · exact ih (Vec3.minByComponent a b) hq2

theorem init_le_foldl_max (l : List Vec3) (a : Vec3) :
    a.x ≤ (l.foldl Vec3.maxByComponent a).x ∧
      a.y ≤ (l.foldl Vec3.maxByComponent a).y ∧
      a.z ≤ (l.foldl Vec3.maxByComponent a).z := by
  induction l generalizing a with
  | nil => exact ⟨le_refl _, le_refl _, le_refl _⟩
  | cons b l ih =>
    rw [List.foldl_cons]
    rcases ih (Vec3.maxByComponent a b) with ⟨hx, hy, hz⟩
    exact ⟨le_trans (le_max_left _ _) hx, le_trans (le_max_left _ _) hy,
      le_trans (le_max_left _ _) hz⟩

theorem mem_le_foldl_max (l : List Vec3) (a q : Vec3) (hq : q ∈ l) :
    q.x ≤ (l.foldl Vec3.maxByComponent a).x ∧
      q.y ≤ (l.foldl Vec3.maxByComponent a).y ∧
      q.z ≤ (l.foldl Vec3.maxByComponent a).z := by
  induction l generalizing a with
  | nil => cases hq
  | cons b l ih =>
    rw [List.foldl_cons]
    rcases List.mem_cons.mp hq with rfl | hq2
    · rcases init_le_foldl_max l (Vec3.maxByComponent a q) with ⟨hx, hy, hz⟩
      exact ⟨le_trans (le_max_right _ _) hx, le_trans (le_max_right _ _) hy,
        le_trans (le_max_right _ _) hz⟩
    · exact ih (Vec3.maxByComponent a b) hq2

/-! ### Octant routing keeps the point inside the child region -/

theorem axis_child_bound (c e px o : ℚ) (he : 0 ≤ e)
    (hlo : c - e / 2 ≤ px) (hhi : px ≤ c + e / 2)
    (ho : (0 ≤ px - c ∧ o = 1) ∨ (¬ 0 ≤ px - c ∧ o = -1)) :
    (c + e * o / 4) - (e / 2) / 2 ≤ px ∧ px ≤ (c + e * o / 4) + (e / 2) / 2 := by
  rcases ho with ⟨h, rfl⟩ | ⟨h, rfl⟩
  · constructor <;> linarith
  · push_neg at h
    constructor <;> linarith

theorem offsets_octant (c p : Vec3) :
    ((0 ≤ p.x - c.x ∧ (offsets.getD (octantIdx c p) Vec3.zero).x = 1) ∨
      (¬ 0 ≤ p.x - c.x ∧ (offsets.getD (octantIdx c p) Vec3.zero).x = -1)) ∧
    ((0 ≤ p.y - c.y ∧ (offsets.getD (octantIdx c p) Vec3.zero).y = 1) ∨
      (¬ 0 ≤ p.y - c.y ∧ (offsets.getD (octantIdx c p) Vec3.zero).y = -1)) ∧
    ((0 ≤ p.z - c.z ∧ (offsets.getD (octantIdx c p) Vec3.zero).z = 1) ∨
      (¬ 0 ≤ p.z - c.z ∧ (offsets.getD (octantIdx c p) Vec3.zero).z = -1)) := by
  by_cases h1 : 0 ≤ p.x - c.x <;> by_cases h2 : 0 ≤ p.y - c.y <;>
    by_cases h3 : 0 ≤ p.z - c.z <;>
    (have hidx := octantIdx_eq c p;
     simp only [h1, h2, h3, if_true, if_false, ite_true, ite_false] at hidx;
     norm_num at hidx;
     rw [hidx]) <;>
    refine ⟨?_, ?_, ?_⟩ <;>
    first
      | exact Or.inl ⟨by assumption, rfl⟩
      | exact Or.inr ⟨by assumption, rfl⟩

/-- If `p` lies in a node's region, it lies in the region of the child
selected by the octant code (child geometry given by `get_child`). -/
theorem inRegion_octant_child (d : NodeData) (ch : Option (List Octree))
    (p : Vec3) (hex : 0 ≤ d.extent.x) (hey : 0 ≤ d.extent.y)
    (hez : 0 ≤ d.extent.z) (hp : inRegion (.mk d ch) p) (c : Octree)
    (hce : c.extent = d.extent / (2 : ℚ))
    (hcc : c.center = d.center +
      d.extent * (offsets.getD (octantIdx d.center p) Vec3.zero) / (4 : ℚ)) :
    inRegion c p := by
  rcases hp with ⟨hx1, hx2, hy1, hy2, hz1, hz2⟩
  rcases offsets_octant d.center p with ⟨hox, hoy, hoz⟩
  have hbx := axis_child_bound d.center.x d.extent.x p.x
    (offsets.getD (octantIdx d.center p) Vec3.zero).x hex
    (by simpa using hx1) (by simpa using hx2) hox
  have hby := axis_child_bound d.center.y d.extent.y p.y
    (offsets.getD (octantIdx d.center p) Vec3.zero).y hey
    (by simpa using hy1) (by simpa using hy2) hoy
  have hbz := axis_child_bound d.center.z d.extent.z p.z
    (offsets.getD (octantIdx d.center p) Vec3.zero).z hez
    (by simpa using hz1) (by simpa using hz2) hoz
  refine ⟨?_, ?_, ?_, ?_, ?_, ?_⟩ <;>
    rw [hce, hcc] <;>
    simp only [Vec3.add_x, Vec3.add_y, Vec3.add_z, Vec3.div_x, Vec3.div_y,
      Vec3.div_z, Vec3.mul_x, Vec3.mul_y, Vec3.mul_z]
  · exact hbx.1
  · exact hbx.2
  · exact hby.1
  · exact hby.2
  · exact hbz.1
  · exact hbz.2

/-! ### Preservation of the geometric and storage invariants -/

theorem InBounds_addToBucket (d : NodeData) (ch : Option (List Octree))
    (idx : ℕ) (p : Vec3) (m : ℚ) (hd : DataOK d) (h : d.count < 8)
    (hb : InBounds (.mk d ch)) (hp : inRegion (.mk d ch) p) :
    InBounds (addToBucket (.mk d ch) idx p m) := by
  obtain ⟨h1, h2, h3, h4, h5, _, _⟩ := hd
  cases hb with
  | mk _ _ hex hey hez hslots hch =>
    rw [addToBucket_mk]
    refine InBounds.mk _ _ hex hey hez ?_ hch
    intro k hk
    have hk2 : k < d.count + 1 := hk
    by_cases hke : k = d.count
    · subst hke
      have hsp : slotPos { d with
          idxs := d.idxs.set d.count idx
          px := d.px.set d.count p.x
          py := d.py.set d.count p.y
          pz := d.pz.set d.count p.z
          ms := d.ms.set d.count m
          count := d.count + 1 } d.count = p := by
        show (⟨(d.px.set d.count p.x).getD d.count 0,
          (d.py.set d.count p.y).getD d.count 0,
          (d.pz.set d.count p.z).getD d.count 0⟩ : Vec3) = p
        rw [getD_set_self _ _ _ (by rw [h2]; omega),
          getD_set_self _ _ _ (by rw [h3]; omega),
          getD_set_self _ _ _ (by rw [h4]; omega)]
      rw [hsp]
      exact hp
    · have hklt : k < d.count := by omega
      have hne : d.count ≠ k := by omega
      have hsp : slotPos { d with
          idxs := d.idxs.set d.count idx
          px := d.px.set d.count p.x
          py := d.py.set d.count p.y
          pz := d.pz.set d.count p.z
          ms := d.ms.set d.count m
          count := d.count + 1 } k = slotPos d k := by
        show (⟨(d.px.set d.count p.x).getD k 0, (d.py.set d.count p.y).getD k 0,
          (d.pz.set d.count p.z).getD k 0⟩ : Vec3) = _
        rw [getD_set_ne _ _ _ _ hne, getD_set_ne _ _ _ _ hne,
          getD_set_ne _ _ _ _ hne]
        rfl
      rw [hsp]
      exact hslots k hklt

theorem extent_nonneg_of_InBounds (t : Octree) (hb : InBounds t) :
    0 ≤ t.extent.x ∧ 0 ≤ t.extent.y ∧ 0 ≤ t.extent.z := by
  cases hb with
  | mk d ch hex hey hez _ _ => exact ⟨hex, hey, hez⟩

theorem InBounds_mkChildren_mem (c e : Vec3) (hex : 0 ≤ e.x) (hey : 0 ≤ e.y)
    (hez : 0 ≤ e.z) : ∀ t ∈ mkChildren c e, InBounds t := by
  intro t ht
  rcases List.mem_map.mp ht with ⟨off, _, rfl⟩
  refine InBounds.mk _ _ ?_ ?_ ?_ ?_ ?_
  · show 0 ≤ e.x / 2
    positivity
  · show 0 ≤ e.y / 2
    positivity
  · show 0 ≤ e.z / 2
    positivity
  · intro k hk
    exact absurd hk (by norm_num [defaultData])
  · intro cs hcs
    cases hcs

theorem InBounds_add_point (t : Octree) (idx : ℕ) (p : Vec3) (m : ℚ)
    (hinv : Inv t) (hb : InBounds t) (hp : inRegion t p) :
    InBounds (add_point t idx p m) := by
  revert hinv hb hp
  induction t, idx, p, m using add_point.induct with
  | case1 d ch idx p m h =>
    intro hinv hb hp
    cases hinv with
    | mk _ _ hd _ _ _ =>
      rw [add_point_room _ _ _ _ _ h]
      exact InBounds_addToBucket d ch idx p m hd h hb hp
  | case2 d idx p m h8 ci cs hci ih =>
    intro hinv hb hp
    rw [add_point_full_some _ _ _ _ _ h8 hci]
    cases hinv with
    | mk _ _ hd hlen hgeom hrec =>
      cases hb with
      | mk _ _ hex hey hez hslots hch =>
        refine InBounds.mk _ _ hex hey hez hslots ?_
        intro cs2 hcs2 c hc
        cases hcs2
        rcases List.mem_or_eq_of_mem_set hc with hmem | rfl
        · exact hch cs rfl c hmem
        · have hchildb : InBounds cs[octantIdx d.center p] :=
            hch cs rfl _ (List.getElem_mem hci)
          have hchildinv : Inv cs[octantIdx d.center p] :=
            hrec cs rfl _ (List.getElem_mem hci)
          have hg := hgeom cs rfl (octantIdx d.center p) hci
          have hchildp : inRegion cs[octantIdx d.center p] p := by
            refine inRegion_octant_child d (some cs) p hex hey hez hp _ ?_ ?_
            · simpa only [List.get_eq_getElem] using hg.1
            · simpa only [List.get_eq_getElem] using hg.2
          simpa only [List.get_eq_getElem] using ih hchildinv hchildb hchildp
  | case3 d idx p m h8 ci cs hci =>
    intro hinv hb hp
    rw [add_point]
    simp only [h8, if_false, hci, dif_neg, not_false_iff]
    exact hb
  | case4 d idx p m h8 =>
    intro hinv hb hp
    rw [add_point_full_none _ _ _ _ h8]
    cases hb with
    | mk _ _ hex hey hez hslots hch =>
      refine InBounds.mk _ _ hex hey hez hslots ?_
      intro cs2 hcs2 c hc
      cases hcs2
      rcases List.mem_or_eq_of_mem_set hc with hmem | rfl
      · exact InBounds_mkChildren_mem d.center d.extent hex hey hez c hmem
      · have hlt : octantIdx d.center p < (mkChildren d.center d.extent).length := by
          simpa using octantIdx_lt d.center p
        have hfresh := mkChildren_getD d.center d.extent (octantIdx d.center p)
          (octantIdx_lt d.center p)
        rw [hfresh]
        have hfreshb : InBounds (.mk { defaultData with
            extent := d.extent / (2 : ℚ)
            center := d.center + d.extent *
              (offsets.getD (octantIdx d.center p) Vec3.zero) / (4 : ℚ) } none) := by
          rw [← hfresh]
          refine InBounds_mkChildren_mem d.center d.extent hex hey hez _ ?_
          rw [hfresh]
          rw [← hfresh]
          rw [List.getD_eq_getElem?_getD, List.getElem?_eq_getElem hlt]
          exact List.getElem_mem hlt
        have hfreshp : inRegion (.mk { defaultData with
            extent := d.extent / (2 : ℚ)
            center := d.center + d.extent *
              (offsets.getD (octantIdx d.center p) Vec3.zero) / (4 : ℚ) } none) p := by
          exact inRegion_octant_child d none p hex hey hez hp _ rfl rfl
        exact InBounds_addToBucket _ none idx p m (DataOK_setGeom _ _)
          (by norm_num [defaultData]) hfreshb hfreshp

theorem Stores_addToBucket (pos : ℕ → Vec3) (d : NodeData)
    (ch : Option (List Octree)) (idx : ℕ) (p : Vec3) (m : ℚ) (hd : DataOK d)
    (h : d.count < 8) (hs : Stores pos (.mk d ch)) (hp : p = pos idx) :
    Stores pos (addToBucket (.mk d ch) idx p m) := by
  obtain ⟨h1, h2, h3, h4, h5, _, _⟩ := hd
  cases hs with
  | mk _ _ hslots hch =>
    rw [addToBucket_mk]
    refine Stores.mk _ _ ?_ hch
    intro k hk
    have hk2 : k < d.count + 1 := hk
    by_cases hke : k = d.count
    · subst hke
      show (⟨(d.px.set d.count p.x).getD d.count 0,
        (d.py.set d.count p.y).getD d.count 0,
        (d.pz.set d.count p.z).getD d.count 0⟩ : Vec3) =
        pos ((d.idxs.set d.count idx).getD d.count 0)
      rw [getD_set_self _ _ _ (by rw [h2]; omega),
        getD_set_self _ _ _ (by rw [h3]; omega),
        getD_set_self _ _ _ (by rw [h4]; omega),
        getD_set_self_nat _ _ _ (by rw [h1]; omega)]
      exact hp
    · have hklt : k < d.count := by omega
      have hne : d.count ≠ k := by omega
      show (⟨(d.px.set d.count p.x).getD k 0, (d.py.set d.count p.y).getD k 0,
        (d.pz.set d.count p.z).getD k 0⟩ : Vec3) =
        pos ((d.idxs.set d.count idx).getD k 0)
      rw [getD_set_ne _ _ _ _ hne, getD_set_ne _ _ _ _ hne,
        getD_set_ne _ _ _ _ hne, getD_set_ne_nat _ _ _ _ hne]
      exact hslots k hklt

theorem Stores_mkChildren_mem (pos : ℕ → Vec3) (c e : Vec3) :
    ∀ t ∈ mkChildren c e, Stores pos t := by
  intro t ht
  rcases List.mem_map.mp ht with ⟨off, _, rfl⟩
  refine Stores.mk _ _ ?_ ?_
  · intro k hk
    exact absurd hk (by norm_num [defaultData])
  · intro cs hcs
    cases hcs

theorem Stores_add_point (pos : ℕ → Vec3) (t : Octree) (idx : ℕ) (p : Vec3)
    (m : ℚ) (hinv : Inv t) (hs : Stores pos t) (hp : p = pos idx) :
    Stores pos (add_point t idx p m) := by
  revert hinv hs hp
  induction t, idx, p, m using add_point.induct with
  | case1 d ch idx p m h =>
    intro hinv hs hp
    cases hinv with
    | mk _ _ hd _ _ _ =>
      rw [add_point_room _ _ _ _ _ h]
      exact Stores_addToBucket pos d ch idx p m hd h hs hp
  | case2 d idx p m h8 ci cs hci ih =>
    intro hinv hs hp
    rw [add_point_full_some _ _ _ _ _ h8 hci]
    cases hinv with
    | mk _ _ hd hlen hgeom hrec =>
      cases hs with
      | mk _ _ hslots hch =>
        refine Stores.mk _ _ hslots ?_
        intro cs2 hcs2 c hc
        cases hcs2
        rcases List.mem_or_eq_of_mem_set hc with hmem | rfl
        · exact hch cs rfl c hmem
        · have hchilds : Stores pos cs[octantIdx d.center p] :=
            hch cs rfl _ (List.getElem_mem hci)
          have hchildinv : Inv cs[octantIdx d.center p] :=
            hrec cs rfl _ (List.getElem_mem hci)
          simpa only [List.get_eq_getElem] using ih hchildinv hchilds hp
  | case3 d idx p m h8 ci cs hci =>
    intro hinv hs hp
    rw [add_point]
    simp only [h8, if_false, hci, dif_neg, not_false_iff]
    exact hs
  | case4 d idx p m h8 =>
    intro hinv hs hp
    rw [add_point_full_none _ _ _ _ h8]
    cases hs with
    | mk _ _ hslots hch =>
      refine Stores.mk _ _ hslots ?_
      intro cs2 hcs2 c hc
      cases hcs2
      rcases List.mem_or_eq_of_mem_set hc with hmem | rfl
      · exact Stores_mkChildren_mem pos d.center d.extent c hmem
      · have hfresh := mkChildren_getD d.center d.extent (octantIdx d.center p)
          (octantIdx_lt d.center p)
        have hlt : octantIdx d.center p < (mkChildren d.center d.extent).length := by
          simpa using octantIdx_lt d.center p
        have hfreshs : Stores pos ((mkChildren d.center d.extent).getD
            (octantIdx d.center p) defaultTree) := by
          refine Stores_mkChildren_mem pos d.center d.extent _ ?_
          rw [List.getD_eq_getElem?_getD, List.getElem?_eq_getElem hlt]
          exact List.getElem_mem hlt
        rw [hfresh] at hfreshs
        rw [hfresh]
        exact Stores_addToBucket pos _ none idx p m (DataOK_setGeom _ _)
          (by norm_num [defaultData]) hfreshs hp

/-! ### Stored indices -/

theorem getD_mem_nat (l : List ℕ) (k : ℕ) (h : k < l.length) : l.getD k 0 ∈ l := by
  have h2 : l.getD k 0 = l[k] := by
    rw [List.getD_eq_getElem?_getD, List.getElem?_eq_getElem h]
    rfl
  rw [h2]
  exact List.getElem_mem h

theorem occupied_of_mem_idxs (d : NodeData) (i : ℕ) (hd : DataOK d)
    (hm : i ∈ d.idxs) (hi0 : i ≠ 0) :
    ∃ k, k < d.count ∧ d.idxs.getD k 0 = i := by
  obtain ⟨h1, _, _, _, _, h6, h7⟩ := hd
  rcases List.getElem_of_mem hm with ⟨k, hk, hki⟩
  have hgetD : d.idxs.getD k 0 = i := by
    rw [List.getD_eq_getElem?_getD, List.getElem?_eq_getElem hk]
    exact hki
  by_cases hkc : k < d.count
  · exact ⟨k, hkc, hgetD⟩
  · exfalso
    have hpad := (h7 k (by omega) (by omega : k < 8)).1
    rw [hpad] at hgetD
    exact hi0 hgetD.symm

theorem mem_storedIdxs_occupied (d : NodeData) (ch : Option (List Octree))
    (k : ℕ) (hk : k < d.count) : d.idxs.getD k 0 ∈ storedIdxs (.mk d ch) := by
  have hmem : d.idxs.getD k 0 ∈ (List.range d.count).map fun j => d.idxs.getD j 0 :=
    List.mem_map.mpr ⟨k, List.mem_range.mpr hk, rfl⟩
  cases ch with
  | none =>
    rw [storedIdxs_mk_none]
    exact hmem
  | some cs =>
    rw [storedIdxs_mk_some]
    exact List.mem_append_left _ hmem

theorem mem_storedIdxs_child (d : NodeData) (cs : List Octree) (c : Octree)
    (hc : c ∈ cs) (x : ℕ) (hx : x ∈ storedIdxs c) :
    x ∈ storedIdxs (.mk d (some cs)) := by
  rw [storedIdxs_mk_some]
  refine List.mem_append_right _ ?_
  exact List.mem_flatten.mpr ⟨storedIdxs c, List.mem_map.mpr ⟨c, hc, rfl⟩, hx⟩

theorem mem_set_self (cs : List Octree) (j : ℕ) (c : Octree) (h : j < cs.length) :
    c ∈ cs.set j c := by
  have h2 : j < (cs.set j c).length := by simpa using h
  exact List.mem_iff_getElem.mpr ⟨j, h2, List.getElem_set_self h2⟩

theorem storedIdxs_add_point_self (t : Octree) (idx : ℕ) (p : Vec3) (m : ℚ)
    (hinv : Inv t) : idx ∈ storedIdxs (add_point t idx p m) := by
  revert hinv
  induction t, idx, p, m using add_point.induct with
  | case1 d ch idx p m h =>
    intro hinv
    cases hinv with
    | mk _ _ hd _ _ _ =>
      obtain ⟨h1, _, _, _, _, _, _⟩ := hd
      rw [add_point_room _ _ _ _ _ h, addToBucket_mk]
      have hsl : (d.idxs.set d.count idx).getD d.count 0 = idx :=
        getD_set_self_nat _ _ _ (by rw [h1]; omega)
      have := mem_storedIdxs_occupied { d with
          idxs := d.idxs.set d.count idx
          px := d.px.set d.count p.x
          py := d.py.set d.count p.y
          pz := d.pz.set d.count p.z
          ms := d.ms.set d.count m
          count := d.count + 1 } ch d.count (by show d.count < d.count + 1; omega)
      rw [show ({ d with
          idxs := d.idxs.set d.count idx
          px := d.px.set d.count p.x
          py := d.py.set d.count p.y
          pz := d.pz.set d.count p.z
          ms := d.ms.set d.count m
          count := d.count + 1 } : NodeData).idxs = d.idxs.set d.count idx from rfl,
        hsl] at this
      exact this
  | case2 d idx p m h8 ci cs hci ih =>
    intro hinv
    cases hinv with
    | mk _ _ hd hlen hgeom hrec =>
      rw [add_point_full_some _ _ _ _ _ h8 hci]
      have hchildinv : Inv cs[octantIdx d.center p] :=
        hrec cs rfl _ (List.getElem_mem hci)
      refine mem_storedIdxs_child d _
        (add_point (cs.get ⟨octantIdx d.center p, hci⟩) idx p m)
        (mem_set_self cs _ _ hci) idx ?_
      simpa only [List.get_eq_getElem] using ih hchildinv
  | case3 d idx p m h8 ci cs hci =>
    intro hinv
    exfalso
    cases hinv with
    | mk _ _ _ hlen _ _ =>
      exact hci (by rw [hlen cs rfl]; exact octantIdx_lt d.center p)
  | case4 d idx p m h8 =>
    intro hinv
    rw [add_point_full_none _ _ _ _ h8]
    have hlt : octantIdx d.center p < (mkChildren d.center d.extent).length := by
      simpa using octantIdx_lt d.center p
    have hfresh := mkChildren_getD d.center d.extent (octantIdx d.center p)
      (octantIdx_lt d.center p)
    refine mem_storedIdxs_child d _
      (addToBucket ((mkChildren d.center d.extent).getD (octantIdx d.center p)
        defaultTree) idx p m)
      (mem_set_self _ _ _ hlt) idx ?_
    rw [hfresh, addToBucket_mk]
    have hsl : ((List.replicate 8 0 : List ℕ).set 0 idx).getD 0 0 = idx :=
      getD_set_self_nat _ _ _ (by norm_num)
    have := mem_storedIdxs_occupied { defaultData with
        extent := d.extent / (2 : ℚ)
        center := d.center + d.extent *
          (offsets.getD (octantIdx d.center p) Vec3.zero) / (4 : ℚ)
        idxs := (List.replicate 8 0 : List ℕ).set 0 idx
        px := (List.replicate 8 (0 : ℚ)).set 0 p.x
        py := (List.replicate 8 (0 : ℚ)).set 0 p.y
        pz := (List.replicate 8 (0 : ℚ)).set 0 p.z
        ms := (List.replicate 8 (0 : ℚ)).set 0 m
        count := 1 } none 0 (by norm_num)
    rw [show ({ defaultData with
        extent := d.extent / (2 : ℚ)
        center := d.center + d.extent *
          (offsets.getD (octantIdx d.center p) Vec3.zero) / (4 : ℚ)
        idxs := (List.replicate 8 0 : List ℕ).set 0 idx
        px := (List.replicate 8 (0 : ℚ)).set 0 p.x
        py := (List.replicate 8 (0 : ℚ)).set 0 p.y
        pz := (List.replicate 8 (0 : ℚ)).set 0 p.z
        ms := (List.replicate 8 (0 : ℚ)).set 0 m
        count := 1 } : NodeData).idxs = (List.replicate 8 0 : List ℕ).set 0 idx
      from rfl, hsl] at this
    exact this

theorem storedIdxs_add_point_mono (t : Octree) (idx : ℕ) (p : Vec3) (m : ℚ)
    (hinv : Inv t) (x : ℕ) (hx : x ∈ storedIdxs t) :
    x ∈ storedIdxs (add_point t idx p m) := by
  revert hinv hx
  induction t, idx, p, m using add_point.induct with
  | case1 d ch idx p m h =>
    intro hinv hx
    cases hinv with
    | mk _ _ hd _ _ _ =>
      obtain ⟨h1, _, _, _, _, _, _⟩ := hd
      rw [add_point_room _ _ _ _ _ h, addToBucket_mk]
      have hsplit : x ∈ ((List.range d.count).map fun j => d.idxs.getD j 0) ∨
          (∃ cs, ch = some cs ∧ x ∈ (cs.map storedIdxs).flatten) := by
        cases ch with
        | none =>
          rw [storedIdxs_mk_none] at hx
          exact Or.inl hx
        | some cs =>
          rw [storedIdxs_mk_some] at hx
          rcases List.mem_append.mp hx with h1 | h2
          · exact Or.inl h1
          · exact Or.inr ⟨cs, rfl, h2⟩
      rcases hsplit with hocc | ⟨cs, rfl, hch2⟩
      · rcases List.mem_map.mp hocc with ⟨k, hk, hkx⟩
        have hklt : k < d.count := List.mem_range.mp hk
        have hne : d.count ≠ k := by omega
        have hval : (d.idxs.set d.count idx).getD k 0 = x := by
          rw [getD_set_ne_nat _ _ _ _ hne]
          exact hkx
        have := mem_storedIdxs_occupied { d with
            idxs := d.idxs.set d.count idx
            px := d.px.set d.count p.x
            py := d.py.set d.count p.y
            pz := d.pz.set d.count p.z
            ms := d.ms.set d.count m
            count := d.count + 1 } ch k (by show k < d.count + 1; omega)
        rw [show ({ d with
            idxs := d.idxs.set d.count idx
            px := d.px.set d.count p.x
            py := d.py.set d.count p.y
            pz := d.pz.set d.count p.z
            ms := d.ms.set d.count m
            count := d.count + 1 } : NodeData).idxs = d.idxs.set d.count idx
          from rfl, hval] at this
        exact this
      · rcases List.mem_flatten.mp hch2 with ⟨l, hl, hxl⟩
        rcases List.mem_map.mp hl with ⟨c, hc, rfl⟩
        exact mem_storedIdxs_child _ cs c hc x hxl
  | case2 d idx p m h8 ci cs hci ih =>
    intro hinv hx
    cases hinv with
    | mk _ _ hd hlen hgeom hrec =>
      rw [add_point_full_some _ _ _ _ _ h8 hci]
      rw [storedIdxs_mk_some] at hx
      rcases List.mem_append.mp hx with hocc | hch2
      · rw [storedIdxs_mk_some]
        exact List.mem_append_left _ hocc
      · rcases List.mem_flatten.mp hch2 with ⟨l, hl, hxl⟩
        rcases List.mem_map.mp hl with ⟨c, hc, rfl⟩
        rcases List.getElem_of_mem hc with ⟨j, hj, rfl⟩
        by_cases hje : j = octantIdx d.center p
        · subst hje
          have hchildinv : Inv cs[octantIdx d.center p] :=
            hrec cs rfl _ (List.getElem_mem hj)
          refine mem_storedIdxs_child d _
            (add_point (cs.get ⟨octantIdx d.center p, hci⟩) idx p m)
            (mem_set_self cs _ _ hci) x ?_
          have hx2 := ih hchildinv hxl
          simpa only [List.get_eq_getElem] using hx2
        · have hmem : cs[j] ∈ cs.set (octantIdx d.center p)
              (add_point (cs.get ⟨octantIdx d.center p, hci⟩) idx p m) := by
            have h2 : j < (cs.set (octantIdx d.center p)
                (add_point (cs.get ⟨octantIdx d.center p, hci⟩) idx p m)).length := by
              simpa using hj
            have h3 : (cs.set (octantIdx d.center p)
                (add_point (cs.get ⟨octantIdx d.center p, hci⟩) idx p m))[j] = cs[j] := by
              rw [List.getElem_set]
              rw [if_neg (by omega)]
            rw [← h3]
            exact List.getElem_mem h2
          exact mem_storedIdxs_child d _ _ hmem x hxl
  | case3 d idx p m h8 ci cs hci =>
    intro hinv hx
    rw [add_point]
    simp only [h8, if_false, hci, dif_neg, not_false_iff]
    exact hx
  | case4 d idx p m h8 =>
    intro hinv hx
    rw [add_point_full_none _ _ _ _ h8]
    rw [storedIdxs_mk_none] at hx
    rw [storedIdxs_mk_some]
    exact List.mem_append_left _ hx

/-! ### Soundness and completeness of the lookup -/

theorem find_some_of_stored (t : Octree) (i : ℕ) (hinv : Inv t)
    (hx : i ∈ storedIdxs t) : ∃ n, find t i = some n := by
  revert hinv hx
  induction t using compute.induct with
  | case1 d =>
    intro hinv hx
    rw [find_mk_none]
    rw [storedIdxs_mk_none] at hx
    rcases List.mem_map.mp hx with ⟨k, hk, hki⟩
    cases hinv with
    | mk _ _ hd _ _ _ =>
      obtain ⟨h1, _, _, _, _, h6, _⟩ := hd
      have hmem : i ∈ d.idxs := by
        rw [← hki]
        exact getD_mem_nat d.idxs k (by
          rw [h1]
          have := List.mem_range.mp hk
          omega)
      rw [if_pos hmem]
      exact ⟨_, rfl⟩
  | case2 d cs ih =>
    intro hinv hx
    rw [find_mk_some]
    by_cases hmem : i ∈ d.idxs
    · rw [if_pos hmem]
      exact ⟨_, rfl⟩
    · rw [if_neg hmem]
      rw [storedIdxs_mk_some] at hx
      cases hinv with
      | mk _ _ hd _ _ hrec =>
        obtain ⟨h1, _, _, _, _, h6, _⟩ := hd
        rcases List.mem_append.mp hx with hocc | hch
        · exfalso
          rcases List.mem_map.mp hocc with ⟨k, hk, hki⟩
          refine hmem ?_
          rw [← hki]
          exact getD_mem_nat d.idxs k (by
            rw [h1]
            have := List.mem_range.mp hk
            omega)
        · rcases List.mem_flatten.mp hch with ⟨l, hl, hxl⟩
          rcases List.mem_map.mp hl with ⟨c, hc, rfl⟩
          rcases ih ⟨c, hc⟩ (hrec cs rfl c hc) hxl with ⟨n, hn⟩
          exact findSome?_isSome_of_mem cs _ c hc n hn

theorem inRegion_of_found (pos : ℕ → Vec3) (t : Octree) (i : ℕ) (n : Octree)
    (hinv : Inv t) (hb : InBounds t) (hs : Stores pos t) (hi0 : i ≠ 0)
    (hf : find t i = some n) : inRegion n (pos i) := by
  revert hi0 hinv hb hs hf
  induction t, i using find.induct with
  | case1 d ch i hmem =>
    intro hinv hb hs hi0 hf
    rw [find_mk] at hf
    rw [if_pos hmem] at hf
    cases hf
    cases hinv with
    | mk _ _ hd _ _ _ =>
      rcases occupied_of_mem_idxs d i hd hmem hi0 with ⟨k, hk, hki⟩
      cases hb with
      | mk _ _ _ _ _ hslots _ =>
        cases hs with
        | mk _ _ hst _ =>
          have h1 := hslots k hk
          have h2 := hst k hk
          rw [h2, hki] at h1
          exact h1
  | case2 d i hmem =>
    intro hinv hb hs hi0 hf
    rw [find_mk_none, if_neg hmem] at hf
    cases hf
  | case3 d i hmem cs ih =>
    intro hinv hb hs hi0 hf
    rw [find_mk_some, if_neg hmem] at hf
    rcases List.exists_of_findSome?_eq_some hf with ⟨c, hc, hfc⟩
    cases hinv with
    | mk _ _ _ _ _ hrec =>
      cases hb with
      | mk _ _ _ _ _ _ hbch =>
        cases hs with
        | mk _ _ _ hsch =>
          exact ih ⟨c, hc⟩ (hrec cs rfl c hc) (hbch cs rfl c hc)
            (hsch cs rfl c hc) hi0 hfc

theorem find_zero_root (pos : ℕ → Vec3) (t : Octree) (hinv : Inv t)
    (hb : InBounds t) (hs : Stores pos t) (hcount : 0 < t.count)
    (hslot0 : t.idxs.getD 0 0 = 0) :
    find t 0 = some t ∧ inRegion t (pos 0) := by
  cases t with
  | mk d ch =>
    rw [idxs_mk] at hslot0
    rw [count_mk] at hcount
    cases hinv with
    | mk _ _ hd _ _ _ =>
      obtain ⟨h1, _, _, _, _, _, _⟩ := hd
      have hmem : (0 : ℕ) ∈ d.idxs := by
        rw [← hslot0]
        exact getD_mem_nat d.idxs 0 (by rw [h1]; omega)
      constructor
      · rw [find_mk, if_pos hmem]
      · cases hb with
        | mk _ _ _ _ _ hslots _ =>
          cases hs with
          | mk _ _ hst _ =>
            have h2 := hslots 0 hcount
            have h3 := hst 0 hcount
            rw [h3, hslot0] at h2
            exact h2

/-! ### Construction-level containment -/

theorem inRegion_congr (t t2 : Octree) (hc : t2.center = t.center)
    (he : t2.extent = t.extent) (q : Vec3) (h : inRegion t q) : inRegion t2 q := by
  unfold inRegion at *
  rw [hc, he]
  exact h

theorem inRegion_root_bounds (p : Vec3) (ps : List Vec3) (q : Vec3)
    (hq : q ∈ p :: ps) :
    inRegion (.mk { defaultData with
      center := ((ps.foldl Vec3.minByComponent p) +
        (ps.foldl Vec3.maxByComponent p)) / (2 : ℚ)
      extent := (ps.foldl Vec3.maxByComponent p) -
        (ps.foldl Vec3.minByComponent p) } none) q := by
  have hmin : (ps.foldl Vec3.minByComponent p).x ≤ q.x ∧
      (ps.foldl Vec3.minByComponent p).y ≤ q.y ∧
      (ps.foldl Vec3.minByComponent p).z ≤ q.z := by
    rcases List.mem_cons.mp hq with rfl | hq2
    · exact foldl_min_le_init_x ps q
    · exact foldl_min_le_mem ps p q hq2
  have hmax : q.x ≤ (ps.foldl Vec3.maxByComponent p).x ∧
      q.y ≤ (ps.foldl Vec3.maxByComponent p).y ∧
      q.z ≤ (ps.foldl Vec3.maxByComponent p).z := by
    rcases List.mem_cons.mp hq with rfl | hq2
    · exact init_le_foldl_max ps q
    · exact mem_le_foldl_max ps p q hq2
  obtain ⟨hm1, hm2, hm3⟩ := hmin
  obtain ⟨hx1, hx2, hx3⟩ := hmax
  refine ⟨?_, ?_, ?_, ?_, ?_, ?_⟩ <;>
    simp only [center_mk, extent_mk] <;>
    show _ ≤ _ <;>
    simp only [Vec3.add_x, Vec3.add_y, Vec3.add_z, Vec3.sub_x, Vec3.sub_y,
      Vec3.sub_z, Vec3.div_x, Vec3.div_y, Vec3.div_z] <;>
    linarith

theorem InBounds_root (p : Vec3) (ps : List Vec3) :
    InBounds (.mk { defaultData with
      center := ((ps.foldl Vec3.minByComponent p) +
        (ps.foldl Vec3.maxByComponent p)) / (2 : ℚ)
      extent := (ps.foldl Vec3.maxByComponent p) -
        (ps.foldl Vec3.minByComponent p) } none) := by
  have hm := foldl_min_le_init_x ps p
  have hx := init_le_foldl_max ps p
  refine InBounds.mk _ _ ?_ ?_ ?_ ?_ ?_
  · show 0 ≤ (ps.foldl Vec3.maxByComponent p).x - (ps.foldl Vec3.minByComponent p).x
    linarith [hm.1, hx.1]
  · show 0 ≤ (ps.foldl Vec3.maxByComponent p).y - (ps.foldl Vec3.minByComponent p).y
    linarith [hm.2.1, hx.2.1]
  · show 0 ≤ (ps.foldl Vec3.maxByComponent p).z - (ps.foldl Vec3.minByComponent p).z
    linarith [hm.2.2, hx.2.2]
  · intro k hk
    exact absurd hk (by norm_num [defaultData])
  · intro cs hcs
    cases hcs

theorem Stores_root (pos : ℕ → Vec3) (c e : Vec3) :
    Stores pos (.mk { defaultData with center := c, extent := e } none) := by
  refine Stores.mk _ _ ?_ ?_
  · intro k hk
    exact absurd hk (by norm_num [defaultData])
  · intro cs hcs
    cases hcs

theorem fold_invariants (pos : ℕ → Vec3) (L : List (ℕ × Vec3 × ℚ)) :
    ∀ t, Inv t → InBounds t → Stores pos t →
      (∀ x ∈ L, inRegion t x.2.1 ∧ x.2.1 = pos x.1) →
      Inv (L.foldl (fun t x => add_point t x.1 x.2.1 x.2.2) t) ∧
        InBounds (L.foldl (fun t x => add_point t x.1 x.2.1 x.2.2) t) ∧
        Stores pos (L.foldl (fun t x => add_point t x.1 x.2.1 x.2.2) t) := by
  induction L with
  | nil =>
    intro t hinv hb hs _
    exact ⟨hinv, hb, hs⟩
  | cons a L ih =>
    intro t hinv hb hs hL
    rw [List.foldl_cons]
    have ha := hL a (List.mem_cons_self a L)
    refine ih _ (Inv_add_point _ _ _ _ hinv)
      (InBounds_add_point _ _ _ _ hinv hb ha.1)
      (Stores_add_point pos _ _ _ _ hinv hs ha.2) ?_
    intro x hx
    have hxc := hL x (List.mem_cons_of_mem a hx)
    exact ⟨inRegion_congr t _ (add_point_center _ _ _ _) (add_point_extent _ _ _ _)
      x.2.1 hxc.1, hxc.2⟩

theorem stored_foldl_mono (L : List (ℕ × Vec3 × ℚ)) :
    ∀ t, Inv t → ∀ x, x ∈ storedIdxs t →
      x ∈ storedIdxs (L.foldl (fun t x => add_point t x.1 x.2.1 x.2.2) t) := by
  induction L with
  | nil =>
    intro t _ x hx
    exact hx
  | cons a L ih =>
    intro t hinv x hx
    rw [List.foldl_cons]
    exact ih _ (Inv_add_point _ _ _ _ hinv) x
      (storedIdxs_add_point_mono _ _ _ _ hinv x hx)

theorem stored_foldl (L : List (ℕ × Vec3 × ℚ)) :
    ∀ t, Inv t → ∀ x ∈ L,
      x.1 ∈ storedIdxs (L.foldl (fun t x => add_point t x.1 x.2.1 x.2.2) t) := by
  induction L with
  | nil =>
    intro t _ x hx
    cases hx
  | cons a L ih =>
    intro t hinv x hx
    rw [List.foldl_cons]
    rcases List.mem_cons.mp hx with rfl | hx2
    · exact stored_foldl_mono L _ (Inv_add_point _ _ _ _ hinv) x.1
        (storedIdxs_add_point_self t x.1 x.2.1 x.2.2 hinv)
    · exact ih _ (Inv_add_point _ _ _ _ hinv) x hx2

theorem occupiedEntries_add_point_grows (t : Octree) (idx : ℕ) (p : Vec3)
    (m : ℚ) (hinv : Inv t) :
    occupiedEntries t <+: occupiedEntries (add_point t idx p m) := by
  rcases nodeAt_add_point_preserved t idx p m hinv [] t (nodeAt_nil t) with
    ⟨n2, hn2, _, _, _, h5, _⟩
  rw [nodeAt_nil] at hn2
  cases hn2
  rcases h5 with h | h
  · rw [h]
  · exact ⟨[(idx, p.x, p.y, p.z, m)], h.symm⟩

theorem occupiedEntries_foldl_grows (L : List (ℕ × Vec3 × ℚ)) :
    ∀ t, Inv t →
      occupiedEntries t <+:
        occupiedEntries (L.foldl (fun t x => add_point t x.1 x.2.1 x.2.2) t) := by
  induction L with
  | nil =>
    intro t _
    exact ⟨[], List.append_nil _⟩
  | cons a L ih =>
    intro t hinv
    rw [List.foldl_cons]
    exact List.IsPrefix.trans (occupiedEntries_add_point_grows t _ _ _ hinv)
      (ih _ (Inv_add_point _ _ _ _ hinv))

theorem root_slot0_of_head (t : Octree) (e : ℕ × ℚ × ℚ × ℚ × ℚ) (s : List (ℕ × ℚ × ℚ × ℚ × ℚ))
    (hpre : occupiedEntries t = (e :: s : List (ℕ × ℚ × ℚ × ℚ × ℚ))) :
    0 < t.count ∧ t.idxs.getD 0 0 = e.1 := by
  cases hc : t.count with
  | zero =>
    exfalso
    have : occupiedEntries t = [] := by
      show ((List.range t.count).map _) = []
      rw [hc]
      rfl
    rw [this] at hpre
    cases hpre
  | succ c =>
    constructor
    · omega
    · have h1 : occupiedEntries t = ((List.range t.count).map fun k =>
          (t.idxs.getD k 0, t.px.getD k 0, t.py.getD k 0, t.pz.getD k 0,
            t.ms.getD k 0)) := rfl
      rw [h1, hc, List.range_succ_eq_map, List.map_cons] at hpre
      have := List.head_eq_of_cons_eq hpre
      have h2 := congrArg Prod.fst this
      exact h2

theorem find_containment_core (p : Vec3) (ps : List Vec3) (m0 : ℚ)
    (ms2 : List ℚ) (hlen : (p :: ps).length = (m0 :: ms2).length) (i : ℕ)
    (hi : i < (p :: ps).length) :
    ∃ n, find (compute ((((p :: ps).zip (m0 :: ms2)).enum).foldl
        (fun t x => add_point t x.1 x.2.1 x.2.2)
        (.mk { defaultData with
               center := ((ps.foldl Vec3.minByComponent p) +
                 (ps.foldl Vec3.maxByComponent p)) / (2 : ℚ)
               extent := (ps.foldl Vec3.maxByComponent p) -
                 (ps.foldl Vec3.minByComponent p) } none))) i = some n ∧
      inRegion n ((p :: ps).getD i Vec3.zero) := by
  have hInv0 : Inv (.mk { defaultData with
      center := ((ps.foldl Vec3.minByComponent p) +
        (ps.foldl Vec3.maxByComponent p)) / (2 : ℚ)
      extent := (ps.foldl Vec3.maxByComponent p) -
        (ps.foldl Vec3.minByComponent p) } none) := Inv_root _ _
  have hB0 := InBounds_root p ps
  have hS0 := Stores_root (fun j => (p :: ps).getD j Vec3.zero)
    (((ps.foldl Vec3.minByComponent p) +
      (ps.foldl Vec3.maxByComponent p)) / (2 : ℚ))
    ((ps.foldl Vec3.maxByComponent p) - (ps.foldl Vec3.minByComponent p))
  have hLcond : ∀ x ∈ (((p :: ps).zip (m0 :: ms2)).enum),
      inRegion (.mk { defaultData with
        center := ((ps.foldl Vec3.minByComponent p) +
          (ps.foldl Vec3.maxByComponent p)) / (2 : ℚ)
        extent := (ps.foldl Vec3.maxByComponent p) -
          (ps.foldl Vec3.minByComponent p) } none) x.2.1 ∧
        x.2.1 = (fun j => (p :: ps).getD j Vec3.zero) x.1 := by
    intro x hx
    have hzip := List.mem_enum_iff_getElem?.mp hx
    have hpts : (p :: ps)[x.1]? = some x.2.1 :=
      (List.getElem?_zip_eq_some.mp hzip).1
    have hmemp : x.2.1 ∈ p :: ps := by
      rcases List.getElem?_eq_some.mp hpts with ⟨hlt, heq⟩
      exact heq ▸ List.getElem_mem hlt
    refine ⟨inRegion_root_bounds p ps x.2.1 hmemp, ?_⟩
    show x.2.1 = (p :: ps).getD x.1 Vec3.zero
    rw [List.getD_eq_getElem?_getD, hpts]
    rfl
  rcases fold_invariants (fun j => (p :: ps).getD j Vec3.zero) _ _ hInv0 hB0 hS0
    hLcond with ⟨hInv1, hB1, hS1⟩
  by_cases hi0 : i = 0
  · -- the first inserted point occupies slot 0 of the root, so `find 0`
    -- returns the root itself
    subst hi0
    have ht1 : (((p :: ps).zip (m0 :: ms2)).enum).foldl
        (fun t x => add_point t x.1 x.2.1 x.2.2)
        (.mk { defaultData with
               center := ((ps.foldl Vec3.minByComponent p) +
                 (ps.foldl Vec3.maxByComponent p)) / (2 : ℚ)
               extent := (ps.foldl Vec3.maxByComponent p) -
                 (ps.foldl Vec3.minByComponent p) } none) =
        (List.enumFrom 1 (ps.zip ms2)).foldl
          (fun t x => add_point t x.1 x.2.1 x.2.2)
          (add_point (.mk { defaultData with
               center := ((ps.foldl Vec3.minByComponent p) +
                 (ps.foldl Vec3.maxByComponent p)) / (2 : ℚ)
               extent := (ps.foldl Vec3.maxByComponent p) -
                 (ps.foldl Vec3.minByComponent p) } none) 0 p m0) := by
      rw [show (p :: ps).zip (m0 :: ms2) = (p, m0) :: ps.zip ms2 from rfl,
        List.enum_cons, List.foldl_cons]
    have hInvA : Inv (add_point (.mk { defaultData with
        center := ((ps.foldl Vec3.minByComponent p) +
          (ps.foldl Vec3.maxByComponent p)) / (2 : ℚ)
        extent := (ps.foldl Vec3.maxByComponent p) -
          (ps.foldl Vec3.minByComponent p) } none) 0 p m0) :=
      Inv_add_point _ _ _ _ hInv0
    have hoccA : occupiedEntries (add_point (.mk { defaultData with
        center := ((ps.foldl Vec3.minByComponent p) +
          (ps.foldl Vec3.maxByComponent p)) / (2 : ℚ)
        extent := (ps.foldl Vec3.maxByComponent p) -
          (ps.foldl Vec3.minByComponent p) } none) 0 p m0) =
        [(0, p.x, p.y, p.z, m0)] := by
      rw [add_point_room _ _ _ _ _ (by norm_num [defaultData])]
      rw [occupiedEntries_addToBucket _ _ _ _ _ (DataOK_setGeom _ _)
        (by norm_num [defaultData])]
      rfl
    have hpre := occupiedEntries_foldl_grows (List.enumFrom 1 (ps.zip ms2)) _ hInvA
    rw [hoccA] at hpre
    rw [← ht1] at hpre
    rcases hpre with ⟨s, hs⟩
    rcases root_slot0_of_head _ _ s hs.symm with ⟨hcount, hslot0⟩
    rcases find_zero_root (fun j => (p :: ps).getD j Vec3.zero) _ hInv1 hB1 hS1
      hcount hslot0 with ⟨hfind, hreg⟩
    refine ⟨compute ((((p :: ps).zip (m0 :: ms2)).enum).foldl
        (fun t x => add_point t x.1 x.2.1 x.2.2)
        (.mk { defaultData with
               center := ((ps.foldl Vec3.minByComponent p) +
                 (ps.foldl Vec3.maxByComponent p)) / (2 : ℚ)
               extent := (ps.foldl Vec3.maxByComponent p) -
                 (ps.foldl Vec3.minByComponent p) } none)), ?_, ?_⟩
    · rw [find_compute, hfind, Option.map_some']
    · exact inRegion_congr _ _ (compute_center _) (compute_extent _) _ hreg
  · -- a nonzero index is matched only at its occupied slot
    have hzi : i < ((p :: ps).zip (m0 :: ms2)).length := by
      rw [List.length_zip, ← hlen]
      simpa using hi
    have hmemL : ((i, ((p :: ps).zip (m0 :: ms2))[i]) :
        ℕ × Vec3 × ℚ) ∈ (((p :: ps).zip (m0 :: ms2)).enum) := by
      rw [List.mem_enum_iff_getElem?]
      exact List.getElem?_eq_getElem hzi
    have hstored := stored_foldl _ _ hInv0 _ hmemL
    rcases find_some_of_stored _ i hInv1 hstored with ⟨n, hn⟩
    have hreg := inRegion_of_found (fun j => (p :: ps).getD j Vec3.zero) _ i n
      hInv1 hB1 hS1 hi0 hn
    refine ⟨compute n, ?_, ?_⟩
    · rw [find_compute, hn, Option.map_some']
    · exact inRegion_congr _ _ (compute_center _) (compute_extent _) _ hreg

/-- C3: for every tree built by `construct` and every originally inserted
index `i`, `find i` returns a node whose axis-aligned region
`[center - extent/2, center + extent/2]` contains the position inserted
with index `i`, on all three axes. -/
theorem find_containment (points : List Vec3) (masses : List ℚ) (t : Octree)
    (i : ℕ) (h : construct points masses = some t) (hi : i < points.length) :
    ∃ n, find t i = some n ∧ inRegion n (points.getD i Vec3.zero) := by
  by_cases hlen : points.length = masses.length
  · cases points with
    | nil => exact absurd hi (by norm_num)
    | cons p ps =>
      cases masses with
      | nil => exact absurd hlen (by norm_num)
      | cons m0 ms2 =>
        rw [construct_cons p ps (m0 :: ms2) hlen] at h
        cases h
        exact find_containment_core p ps m0 ms2 hlen i hi
  · rw [construct.eq_def, if_neg hlen] at h
    cases h

/-- C3 witness. -/
theorem find_containment_witness :
    construct [(⟨1, 2, 3⟩ : Vec3)] [(5 : ℚ)] =
      some ((construct [(⟨1, 2, 3⟩ : Vec3)] [(5 : ℚ)]).getD defaultTree) ∧
      (0 : ℕ) < ([(⟨1, 2, 3⟩ : Vec3)]).length ∧
      ∃ n, find ((construct [(⟨1, 2, 3⟩ : Vec3)] [(5 : ℚ)]).getD defaultTree) 0 =
        some n ∧ inRegion n (([(⟨1, 2, 3⟩ : Vec3)]).getD 0 Vec3.zero) :=
  ⟨by rw [construct_cons ⟨1, 2, 3⟩ [] [(5 : ℚ)] rfl]; rfl, by norm_num,
    find_containment [(⟨1, 2, 3⟩ : Vec3)] [(5 : ℚ)] _ 0
      (by rw [construct_cons ⟨1, 2, 3⟩ [] [(5 : ℚ)] rfl]; rfl) (by norm_num)⟩

end Octree

end BarnesHut
